import Mathlib

/-!
Verification of the grid data-synchronization core of the av-benchmark-pro
comparison-matrix application (App.tsx, full-state-replacement variant, plus
ComparisonTable.tsx).  JavaScript strings are modelled as `List Char`
(wrapped in `String` at the boundaries), JavaScript objects used as sparse
maps are modelled as insertion-ordered association lists, and JavaScript
numbers are modelled as `Int` (`Option Int` with `none` for `NaN` where the
code can produce `NaN`).  `Math.random()`-based identifier/color generation
is modelled by threading an explicit supply `Nat → String`.
-/

namespace AV

/-! ## JavaScript string primitives -/

/-- Whitespace recognised by the model of `String.prototype.trim` /
regex `\s` (the ASCII part of the JS WhiteSpace and LineTerminator
productions plus NBSP and the BOM). -/
def isJsWS (c : Char) : Bool :=
  c == ' ' || c == '\t' || c == '\n' || c == '\r' ||
  c == '\u000B' || c == '\u000C' || c == ' ' || c == '﻿'

/-- Model of `str.trim()`: drop leading and trailing whitespace. -/
def jsTrim (l : List Char) : List Char :=
  ((l.dropWhile isJsWS).reverse.dropWhile isJsWS).reverse

/-- Model of `text.split(/\r?\n/)` (the line splitter used by the CSV
importer): a `\r\n` pair or a lone `\n` ends a line; a lone `\r` does not. -/
def splitRN : List Char → List Char → List (List Char)
  | [], cur => [cur]
  | c :: rest, cur =>
    if c = '\r' then
      if rest.head? = some '\n' then cur :: splitRN rest.tail []
      else splitRN rest (cur ++ [c])
    else if c = '\n' then cur :: splitRN rest []
    else splitRN rest (cur ++ [c])
termination_by l _ => l.length
decreasing_by all_goals simp [List.length_tail] <;> omega

/-- Model of `Array.prototype.join(sep)` for an array of strings. -/
def joinChar (sep : Char) : List (List Char) → List Char
  | [] => []
  | [l] => l
  | l :: rest => l ++ sep :: joinChar sep rest

/-- Model of `str.toLowerCase()` (ASCII case mapping). -/
def lowerChars (l : List Char) : List Char := l.map Char.toLower

/-- Helper of `slugChars`: the flag records whether the previous character
belonged to a whitespace run, so that each maximal run emits one `'_'`. -/
def slugAux : List Char → Bool → List Char
  | [], _ => []
  | c :: rest, prevWS =>
    if isJsWS c then
      if prevWS then slugAux rest true else '_' :: slugAux rest true
    else c.toLower :: slugAux rest false

/-- Model of `name.toLowerCase().replace(/\s+/g, '_')`: lower-case the
string and collapse every maximal whitespace run into a single `'_'`.
Used by the importer and `handleAddDimension` to slug dimension ids. -/
def slugChars (l : List Char) : List Char := slugAux l false

/-! ## JavaScript number/string conversions -/

/-- Decimal digits of a natural number, as `String(n)` prints them. -/
def natToChars (n : Nat) : List Char :=
  if n < 10 then [Nat.digitChar n]
  else natToChars (n / 10) ++ [Nat.digitChar (n % 10)]
termination_by n
decreasing_by
  exact Nat.div_lt_self (by omega) (by omega)

/-- Model of `String(n)` for an integer-valued JS number. -/
def intToChars (i : Int) : List Char :=
  if i < 0 then '-' :: natToChars (-i).toNat else natToChars i.toNat

/-- Accumulating decimal parser: fails on the first non-digit. -/
def digitsToNatAux : List Char → Nat → Option Nat
  | [], acc => some acc
  | c :: rest, acc =>
    if c.isDigit then digitsToNatAux rest (acc * 10 + (c.toNat - 48)) else none

/-- Parse a non-empty all-digit string. -/
def digitsToNat? : List Char → Option Nat
  | [] => none
  | l => digitsToNatAux l 0

/-- Model of JavaScript `Number(string)` restricted to optionally signed
decimal integer literals with surrounding whitespace; the empty (or
all-whitespace) string converts to `0` as in JS.  Other syntactic forms
(fractions, exponents, hex, `Infinity`) are outside the model and return
`none`, the model's `NaN`. -/
def jsNumberCore : List Char → Option Int
  | [] => some 0
  | c :: rest =>
    if c = '-' then (digitsToNat? rest).map (fun n => -(n : Int))
    else if c = '+' then (digitsToNat? rest).map (fun n => (n : Int))
    else (digitsToNat? (c :: rest)).map (fun n => (n : Int))

/-- Model of JavaScript `Number(string)`: see `jsNumberCore`. -/
def jsNumber? (l : List Char) : Option Int := jsNumberCore (jsTrim l)

/-- Model of `Math.min(a, x)` where `x` may be `NaN` (`none`). -/
def jsMin (a : Int) : Option Int → Option Int
  | none => none
  | some b => some (min a b)

/-- Model of `Math.max(a, x)` where `x` may be `NaN` (`none`). -/
def jsMax (a : Int) : Option Int → Option Int
  | none => none
  | some b => some (max a b)

/-! ## CSV helper functions (`escapeCSV`, `parseCSVLine`) -/

/-- Condition of `escapeCSV`: the field contains a comma, a double quote
or a newline. -/
def needsQuote (l : List Char) : Bool :=
  l.any (fun c => c == ',' || c == '"' || c == '\n')

/-- Model of `stringValue.replace(/"/g, '""')`. -/
def doubleQuotes : List Char → List Char
  | [] => []
  | c :: rest => if c = '"' then '"' :: '"' :: doubleQuotes rest else c :: doubleQuotes rest

/-- Character-level body of `escapeCSV` (string input case). -/
def escapeChars (l : List Char) : List Char :=
  if needsQuote l then '"' :: doubleQuotes l ++ ['"'] else l

/-- The source's `escapeCSV` on a string argument. -/
def escapeCSV (s : String) : String := ⟨escapeChars s.data⟩

/-- Character-level loop of `parseCSVLine`: `inQ` is the `inQuotes` flag,
`cur` the current field, `acc` the fields emitted so far.  A doubled quote
inside quotes is a literal quote; a comma outside quotes ends a field. -/
def parseCSVChars : List Char → Bool → List Char → List (List Char) → List (List Char)
  | [], _, cur, acc => acc ++ [cur]
  | c :: rest, inQ, cur, acc =>
    if c = '"' then
      if inQ then
        if rest.head? = some '"' then parseCSVChars rest.tail true (cur ++ ['"']) acc
        else parseCSVChars rest false cur acc
      else parseCSVChars rest true cur acc
    else if c = ',' then
      if inQ then parseCSVChars rest inQ (cur ++ [c]) acc
      else parseCSVChars rest false [] (acc ++ [cur])
    else parseCSVChars rest inQ (cur ++ [c]) acc
termination_by l _ _ _ => l.length
decreasing_by all_goals simp [List.length_tail] <;> omega

/-- The source's `parseCSVLine`. -/
def parseCSVLine (line : String) : List String :=
  (parseCSVChars line.data false [] []).map (fun l => (⟨l⟩ : String))

/-! ## Data model -/

/-- A comparison dimension (`types.ts` `Dimension`). -/
structure Dimension where
  id : String
  name : String
deriving DecidableEq

/-- A compared software entry (`types.ts` `Software`); `scores` and
`descriptions` are JS objects used as sparse maps keyed by dimension id,
modelled as insertion-ordered association lists. -/
structure Software where
  id : String
  name : String
  color : String
  scores : List (String × Int)
  descriptions : List (String × String)
deriving DecidableEq

/-- Model of reading `obj[k]` from a JS object map (`undefined` = `none`). -/
def objGet {V : Type} (m : List (String × V)) (k : String) : Option V :=
  (m.find? (fun p => p.1 == k)).map (fun p => p.2)

/-- Model of `{ ...obj, [k]: v }`: an existing key keeps its position and
gets the new value; a new key is appended in insertion order. -/
def objSet {V : Type} (m : List (String × V)) (k : String) (v : V) : List (String × V) :=
  if m.any (fun p => p.1 == k) then
    m.map (fun p => if p.1 == k then (k, v) else p)
  else m ++ [(k, v)]

/-! ## Entity-store handlers (App.tsx) -/

/-- The source's `handleScoreUpdate`: write `value` into the scores map of
the software with the given id; other softwares are untouched. -/
def handleScoreUpdate (sws : List Software) (softwareId dimensionId : String)
    (value : Int) : List Software :=
  sws.map (fun sw =>
    if sw.id = softwareId then
      { sw with scores := objSet sw.scores dimensionId value }
    else sw)

/-- The value computed by the score `<input>`'s onChange in
ComparisonTable.tsx: `Math.max(0, Math.min(10, Number(e.target.value)))`.
`none` is `NaN`, which `Math.min`/`Math.max` propagate. -/
def clampScoreInput (s : String) : Option Int :=
  jsMax 0 (jsMin 10 (jsNumber? s.data))

/-- The source's `handleAddDimension`; `gen` is the value returned by
`generateId()` for this call.  A name that is empty after trimming is a
no-op; otherwise the new dimension is appended and every software's scores
map gains the new id at value `5` (descriptions are shallow-copied). -/
def handleAddDimension (dims : List Dimension) (sws : List Software)
    (name : String) (gen : String) : List Dimension × List Software :=
  if jsTrim name.data = [] then (dims, sws)
  else
    let newId : String := ⟨slugChars name.data ++ '_' :: gen.data⟩
    ( dims ++ [{ id := newId, name := name }]
    , sws.map (fun sw => { sw with scores := objSet sw.scores newId 5 }) )

/-- Sum of all stored scores of a software:
`Object.values(sw.scores).reduce((a, b) => a + b, 0)`. -/
def totalScore (sw : Software) : Int :=
  (sw.scores.map (fun p => p.2)).foldl (· + ·) 0

/-- The leader computation from the header stats panel:
`softwares.reduce((prev, current) => prevTotal > currTotal ? prev : current)`
guarded by `softwares.length > 0`. -/
def leader : List Software → Option Software
  | [] => none
  | s :: rest =>
    some (rest.foldl
      (fun prev current => if totalScore prev > totalScore current then prev else current) s)

/-- The reduce step of the leader computation (named for the proofs). -/
def leaderStep (prev current : Software) : Software :=
  if totalScore prev > totalScore current then prev else current

/-! ## CSV export (`handleExportCSV`) -/

/-- Exported score cell: `s.scores[dim.id] || 0`. -/
def exportScore (sw : Software) (dimId : String) : Int :=
  (objGet sw.scores dimId).getD 0

/-- Exported description cell: `s.descriptions[dim.id] || ''`. -/
def exportDesc (sw : Software) (dimId : String) : String :=
  (objGet sw.descriptions dimId).getD ""

/-- The header row of `handleExportCSV`:
`['Dimension', 'Type', ...softwares.map(s => escapeCSV(s.name))].join(',')`. -/
def headerRowChars (sws : List Software) : List Char :=
  joinChar ',' ("Dimension".data :: "Type".data :: sws.map (fun s => escapeChars s.name.data))

/-- A `Score` row of `handleExportCSV`: the dimension name escaped, the
literal `Score`, then the raw (unescaped) number cells. -/
def scoreRowChars (sws : List Software) (d : Dimension) : List Char :=
  joinChar ',' (escapeChars d.name.data :: "Score".data ::
    sws.map (fun s => intToChars (exportScore s d.id)))

/-- A `Description` row of `handleExportCSV`. -/
def descRowChars (sws : List Software) (d : Dimension) : List Char :=
  joinChar ',' (escapeChars d.name.data :: "Description".data ::
    sws.map (fun s => escapeChars (exportDesc s d.id).data))

/-- The rows of `handleExportCSV`: a header row, then for each dimension a
`Score` row and a `Description` row. -/
def exportRows (dims : List Dimension) (sws : List Software) : List (List Char) :=
  headerRowChars sws
  :: dims.flatMap (fun d => [scoreRowChars sws d, descRowChars sws d])

/-- The full CSV text produced by `handleExportCSV`:
`'﻿' + csvRows.join('\n')`. -/
def exportCSV (dims : List Dimension) (sws : List Software) : String :=
  ⟨'﻿' :: joinChar '\n' (exportRows dims sws)⟩

/-! ## CSV import (`handleFileChange`, full-state-replacement variant) -/

/-- Subject reconciliation of the importer: for each header name (from
column 2 on), reuse the id and color of an existing software with exactly
the trimmed name, else mint a fresh id and color.  `ctr` counts the fresh
entities minted so far; `genId`/`genColor` are the supplies standing for
`generateId()` and the random `hsl(...)` color. -/
def mintSubjects (genId genColor : Nat → String) (existing : List Software) :
    List (List Char) → Nat → List Software × Nat
  | [], ctr => ([], ctr)
  | name :: rest, ctr =>
    let t := jsTrim name
    match existing.find? (fun s => s.name.data == t) with
    | some e =>
      let (others, ctr') := mintSubjects genId genColor existing rest ctr
      ({ id := e.id, name := ⟨t⟩, color := e.color, scores := [], descriptions := [] }
        :: others, ctr')
    | none =>
      let (others, ctr') := mintSubjects genId genColor existing rest (ctr + 1)
      ({ id := genId ctr, name := ⟨t⟩, color := genColor ctr, scores := [], descriptions := [] }
        :: others, ctr')

/-- State threaded through the importer's data-row loop. -/
structure ImpSt where
  dims : List Dimension
  sws : List Software
  ctr : Nat
deriving DecidableEq

/-- Dimension id minted by the importer:
`dimName.toLowerCase().replace(/\s+/g, '_') + '_' + generateId()`. -/
def mintDimId (genId : Nat → String) (dimName : List Char) (ctr : Nat) : String :=
  ⟨slugChars dimName ++ '_' :: (genId ctr).data⟩

/-- One cell assignment of the importer:
`scores[dim.id] = Number(val) || 0` on a Score row,
`descriptions[dim.id] = val` on a Description row, nothing otherwise. -/
def applyCell (type : List Char) (dimId : String) (val : List Char) (sw : Software) :
    Software :=
  if type = "score".data then
    { sw with scores := objSet sw.scores dimId ((jsNumber? val).getD 0) }
  else if type = "description".data then
    { sw with descriptions := objSet sw.descriptions dimId ⟨val⟩ }
  else sw

/-- The `values.forEach((val, index) => if (index < newSoftwares.length) …)`
loop: assign positionally, ignoring value columns beyond the subject list
and leaving subjects beyond the value list untouched. -/
def applyValues (type : List Char) (dimId : String) :
    List (List Char) → List Software → List Software
  | _, [] => []
  | [], sws => sws
  | v :: vs, sw :: rest => applyCell type dimId v sw :: applyValues type dimId vs rest

/-- Processing of one parsed data row: rows with fewer than 3 fields are
skipped; the dimension is reconciled by exact trimmed name against the
dimensions already resolved during this pass, minting a fresh one on miss. -/
def processFields (genId : Nat → String) (st : ImpSt) (fields : List (List Char)) : ImpSt :=
  match fields with
  | f0 :: f1 :: values =>
    if values = [] then st
    else
      let dimName := jsTrim f0
      let type := lowerChars (jsTrim f1)
      match st.dims.find? (fun d => d.name.data == dimName) with
      | some dim => { st with sws := applyValues type dim.id values st.sws }
      | none =>
        let dim : Dimension := { id := mintDimId genId dimName st.ctr, name := ⟨dimName⟩ }
        { dims := st.dims ++ [dim], ctr := st.ctr + 1
        , sws := applyValues type dim.id values st.sws }
  | _ => st

/-- Parse one raw line and process it. -/
def processRow (genId : Nat → String) (st : ImpSt) (line : List Char) : ImpSt :=
  processFields genId st (parseCSVChars line false [] [])

/-- Outcome of the importer: `noText` is the silent `if (!text) return`
path, `failure` is any thrown format error or the empty-result alert (the
live state is untouched in both), `success` carries the resolved lists
that replace the live state when the user confirms. -/
inductive ImportResult where
  | noText
  | failure
  | success (dims : List Dimension) (sws : List Software)
deriving DecidableEq

/-- The source's `handleFileChange` (reader onload body) as a pure function
of the file text and the pre-import state.  All mutation in the source
happens in the single `setDimensions`/`setSoftwares` pair after parsing
finishes, so the embedding returns the replacement lists on success and
leaves the state to the caller otherwise. -/
def importCSV (genId genColor : Nat → String) (dims : List Dimension)
    (sws : List Software) (text : String) : ImportResult :=
  if text.data = [] then .noText
  else
    let lines := (splitRN text.data []).filter (fun l => !(jsTrim l).isEmpty)
    match lines with
    | l0 :: l1 :: rest =>
      let headers := parseCSVChars l0 false [] []
      if headers.length < 3 then .failure
      else
        let swNames := headers.drop 2
        let minted := mintSubjects genId genColor sws swNames 0
        let final := (l1 :: rest).foldl (processRow genId)
          { dims := [], sws := minted.1, ctr := minted.2 }
        if final.dims.length = 0 ∨ final.sws.length = 0 then .failure
        else .success final.dims final.sws
    | _ => .failure

/-- Effect of the import outcome on the live state: only a confirmed
success replaces the collections. -/
def commitImport (dims : List Dimension) (sws : List Software) :
    ImportResult → List Dimension × List Software
  | .success d s => (d, s)
  | _ => (dims, sws)

/-- Number of non-empty (after trimming) lines of a text, as the importer
counts them. -/
def countNonEmptyLines (text : String) : Nat :=
  ((splitRN text.data []).filter (fun l => !(jsTrim l).isEmpty)).length

/-! ## Reordering (`arrayMove` from `@dnd-kit/sortable`) -/

/-- JS `Array.prototype.splice` index normalisation: a negative start is
offset from the end and clamped to `0`; a start beyond the length is
clamped to the length. -/
def jsNormIdx (start : Int) (len : Nat) : Nat :=
  if start < 0 then ((len : Int) + start).toNat else min start.toNat len

/-- Model of `a.splice(start, 1)`: the removed element (if any) and the
remaining array. -/
def spliceRemove1 {β : Type} (a : List β) (start : Int) : Option β × List β :=
  let s := jsNormIdx start a.length
  (a.get? s, a.take s ++ a.drop (s + 1))

/-- Model of `a.splice(start, 0, item)`: insert `item` at the normalised
position. -/
def spliceInsert {β : Type} (a : List β) (start : Int) (item : β) : List β :=
  let s := jsNormIdx start a.length
  a.take s ++ item :: a.drop s

/-- The `arrayMove` of `@dnd-kit/sortable` (the dependency imported by
App.tsx), whose published implementation is
`newArray.splice(to < 0 ? newArray.length + to : to, 0, newArray.splice(from, 1)[0])`
on a copy.  Array elements are `Option β` because `splice(from, 1)[0]` is
`undefined` when `from` is past the end, and that `undefined` is then
inserted; the `to`-index offset is computed from the pre-removal length. -/
def arrayMove {β : Type} (array : List (Option β)) (fromI toI : Int) : List (Option β) :=
  let toIdx : Int := if toI < 0 then (array.length : Int) + toI else toI
  let rem := spliceRemove1 array fromI
  spliceInsert rem.2 toIdx rem.1.join

/-- The source's `handleReorderSoftwares`:
`setSoftwares(items => arrayMove(items, oldIndex, newIndex))`. -/
def handleReorderSoftwares (sws : List Software) (oldIndex newIndex : Int) :
    List (Option Software) :=
  arrayMove (sws.map some) oldIndex newIndex

/-- The source's `handleReorderDimensions`. -/
def handleReorderDimensions (dims : List Dimension) (oldIndex newIndex : Int) :
    List (Option Dimension) :=
  arrayMove (dims.map some) oldIndex newIndex

/-- Subject names of a successful import outcome (empty otherwise). -/
def successSubjectNames : ImportResult → List String
  | .success _ sws => sws.map (fun s => s.name)
  | _ => []

/-- The identity data of a software entry that the importer's data-row
loop never touches: id, name and color. -/
def swTriple (s : Software) : String × String × String := (s.id, s.name, s.color)

/-! ## Concrete fixture values for the concrete evaluations -/

/-- Example software entry. -/
def exSwA : Software :=
  { id := "a", name := "A", color := "red", scores := [("d", 10)], descriptions := [] }

/-- Example software entry with the same total score as `exSwA`. -/
def exSwB : Software :=
  { id := "b", name := "B", color := "blue", scores := [("d", 10)], descriptions := [] }

/-- Example software entry with a smaller total score. -/
def exSwC : Software :=
  { id := "c", name := "C", color := "green", scores := [("d", 3)], descriptions := [] }

/-- Example dimension. -/
def exDimD : Dimension := { id := "d1", name := "Dim" }

/-- Example software whose name has a leading space. -/
def exSwLead : Software :=
  { id := "s1", name := " A", color := "red", scores := [("d1", 7)], descriptions := [] }

/-! ## Expected shapes of the importer's output (used by the theorems) -/

/-- The dimensions the importer resolves from an exported grid: one per
original dimension, in order, each with a freshly minted id (the counter
starts at `k`). -/
def mintedDims (genId : Nat → String) : List Dimension → Nat → List Dimension
  | [], _ => []
  | d :: rest, k =>
    { id := mintDimId genId d.name.data k, name := d.name } :: mintedDims genId rest (k + 1)

/-- The score/description map the importer rebuilds for one subject: one
entry per processed dimension, keyed by the freshly minted dimension id. -/
def mintedVals {V : Type} (genId : Nat → String) (f : Dimension → V) :
    List Dimension → Nat → List (String × V)
  | [], _ => []
  | d :: rest, k =>
    (mintDimId genId d.name.data k, f d) :: mintedVals genId f rest (k + 1)

/-- The subject the importer produces for an original subject `s` after
processing the dimension prefix `P` of an exported grid. -/
def importedSw (genId : Nat → String) (P : List Dimension) (s : Software) : Software :=
  { id := s.id, name := s.name, color := s.color
  , scores := mintedVals genId (fun d => exportScore s d.id) P 0
  , descriptions := mintedVals genId (fun d => exportDesc s d.id) P 0 }

/-! ## Lemmas about object maps -/

theorem findKey_cons_of_eq {V : Type} (p : String × V) (rest : List (String × V))
    (k : String) (h : p.1 = k) :
    List.find? (fun q => q.1 == k) (p :: rest) = some p :=
  List.find?_cons_of_pos _ (by simp [h])

theorem findKey_cons_of_ne {V : Type} (p : String × V) (rest : List (String × V))
    (k : String) (h : ¬p.1 = k) :
    List.find? (fun q => q.1 == k) (p :: rest) = List.find? (fun q => q.1 == k) rest :=
  List.find?_cons_of_neg _ (by simp [h])

theorem objGet_map_update_self {V : Type} (m : List (String × V)) (k : String) (v : V)
    (hany : m.any (fun p => p.1 == k)) :
    objGet (m.map (fun p => if p.1 == k then (k, v) else p)) k = some v := by
  unfold objGet
  induction m with
  | nil => simp at hany
  | cons p rest ih =>
    by_cases hp : p.1 = k
    · have hb : (p.1 == k) = true := by simp [hp]
      simp only [List.map_cons]
      rw [if_pos hb, findKey_cons_of_eq ((k, v) : String × V) _ k rfl]
      rfl
    · have hb : ¬((p.1 == k) = true) := by simp [hp]
      simp only [List.map_cons]
      rw [if_neg hb, findKey_cons_of_ne p _ k hp]
      simp only [List.any_cons, Bool.or_eq_true] at hany
      exact ih (hany.resolve_left (by simp [hp]))

theorem objGet_append_single_self {V : Type} (m : List (String × V)) (k : String) (v : V)
    (h : ∀ p ∈ m, ¬p.1 = k) :
    objGet (m ++ [(k, v)]) k = some v := by
  unfold objGet
  induction m with
  | nil => simp
  | cons p rest ih =>
    rw [List.cons_append, findKey_cons_of_ne p _ k (h p (by simp))]
    exact ih (fun q hq => h q (by simp [hq]))

theorem objGet_map_update_ne {V : Type} (m : List (String × V)) (k k' : String) (v : V)
    (h : k' ≠ k) :
    objGet (m.map (fun p => if p.1 == k then (k, v) else p)) k' = objGet m k' := by
  unfold objGet
  induction m with
  | nil => simp
  | cons p rest ih =>
    by_cases hp : p.1 = k
    · have hb : (p.1 == k) = true := by simp [hp]
      simp only [List.map_cons]
      rw [if_pos hb, findKey_cons_of_ne ((k, v) : String × V) _ k' (fun hh => h hh.symm),
        findKey_cons_of_ne p _ k' (by rw [hp]; exact fun hh => h hh.symm)]
      exact ih
    · have hb : ¬((p.1 == k) = true) := by simp [hp]
      simp only [List.map_cons]
      rw [if_neg hb]
      by_cases hp' : p.1 = k'
      · rw [findKey_cons_of_eq p _ k' hp', findKey_cons_of_eq p _ k' hp']
      · rw [findKey_cons_of_ne p _ k' hp', findKey_cons_of_ne p _ k' hp']
        exact ih

theorem objGet_append_single_ne {V : Type} (m : List (String × V)) (k k' : String) (v : V)
    (h : k' ≠ k) :
    objGet (m ++ [(k, v)]) k' = objGet m k' := by
  unfold objGet
  rw [List.find?_append, findKey_cons_of_ne ((k, v) : String × V) _ k' (fun hh => h hh.symm)]
  simp

theorem objGet_objSet_self {V : Type} (m : List (String × V)) (k : String) (v : V) :
    objGet (objSet m k v) k = some v := by
  unfold objSet
  split
  · exact objGet_map_update_self m k v (by assumption)
  · rename_i hany
    apply objGet_append_single_self
    intro p hp
    simp only [List.any_eq_true, not_exists, not_and, Bool.not_eq_true] at hany
    have := hany p hp
    simpa using this

theorem objGet_objSet_ne {V : Type} (m : List (String × V)) (k k' : String) (v : V)
    (h : k' ≠ k) : objGet (objSet m k v) k' = objGet m k' := by
  unfold objSet
  split
  · exact objGet_map_update_ne m k k' v h
  · exact objGet_append_single_ne m k k' v h

/-- If no key of `m` equals `k`, `objSet` appends the new pair. -/
theorem objSet_append {V : Type} (m : List (String × V)) (k : String) (v : V)
    (h : ∀ p ∈ m, p.1 ≠ k) : objSet m k v = m ++ [(k, v)] := by
  unfold objSet
  rw [if_neg]
  simp only [List.any_eq_true, not_exists, not_and, Bool.not_eq_true]
  intro p hp
  simp [h p hp]

/-- Keys of a set are keys of the map plus the written key. -/
theorem objGet_objSet_isSome {V : Type} (m : List (String × V)) (k k' : String) (v : V)
    (h : (objGet (objSet m k v) k').isSome) :
    (objGet m k').isSome ∨ k' = k := by
  by_cases hk : k' = k
  · exact Or.inr hk
  · rw [objGet_objSet_ne m k k' v hk] at h
    exact Or.inl h

/-! ## Lemmas about `arrayMove` (reordering) -/

theorem jsNormIdx_natCast (i len : Nat) (h : i ≤ len) : jsNormIdx (i : Int) len = i := by
  unfold jsNormIdx
  rw [if_neg (by omega)]
  simp only [Int.toNat_natCast]
  omega

/-- A private helper: inserting at an in-bounds position is `insertIdx`. -/
theorem take_cons_drop_eq_insertIdx {β : Type} (l : List β) (n : Nat) (x : β)
    (h : n ≤ l.length) : l.take n ++ x :: l.drop n = l.insertIdx n x := by
  induction l generalizing n with
  | nil =>
    have : n = 0 := by simpa using h
    subst this
    rfl
  | cons c rest ih =>
    cases n with
    | zero => rfl
    | succ m =>
      simp only [List.take_succ_cons, List.drop_succ_cons, List.cons_append,
        List.insertIdx_succ_cons]
      rw [ih m (by simpa using h)]

/-- On in-bounds indices, `arrayMove` removes the element at `i` and
reinserts it at `j`. -/
theorem arrayMove_eq_insertIdx {β : Type} (l : List (Option β)) (i j : Nat)
    (hi : i < l.length) (hj : j < l.length) :
    arrayMove l (i : Int) (j : Int) = (l.eraseIdx i).insertIdx j l[i] := by
  unfold arrayMove spliceRemove1 spliceInsert
  rw [if_neg (by omega)]
  rw [jsNormIdx_natCast i l.length (le_of_lt hi)]
  have hget : l.get? i = some l[i] := by
    simp [List.get?_eq_getElem?, List.getElem?_eq_getElem hi]
  have hjoin : (some l[i] : Option (Option β)).join = l[i] := rfl
  simp only [hget, hjoin]
  have hlen : (l.take i ++ l.drop (i + 1)).length = l.length - 1 := by
    simp only [List.length_append, List.length_take, List.length_drop]
    omega
  rw [hlen, jsNormIdx_natCast j (l.length - 1) (by omega)]
  rw [← List.eraseIdx_eq_take_drop_succ]
  exact take_cons_drop_eq_insertIdx _ j _ (by rw [List.length_eraseIdx_of_lt hi]; omega)

/-- Removing the element at `i` and reinserting it at `i` restores the list. -/
theorem insertIdx_getElem_eraseIdx {β : Type} (l : List β) (i : Nat) (hi : i < l.length) :
    (l.eraseIdx i).insertIdx i l[i] = l := by
  induction l generalizing i with
  | nil => simp at hi
  | cons c rest ih =>
    cases i with
    | zero => rfl
    | succ m =>
      simp only [List.eraseIdx_cons_succ, List.getElem_cons_succ, List.insertIdx_succ_cons]
      rw [ih m (by simpa using hi)]

/-- The element moved out at `i` ends up back in a permutation with the rest. -/
theorem getElem_cons_eraseIdx_perm {β : Type} (l : List β) (i : Nat) (hi : i < l.length) :
    (l[i] :: l.eraseIdx i).Perm l := by
  induction l generalizing i with
  | nil => simp at hi
  | cons c rest ih =>
    cases i with
    | zero => rfl
    | succ m =>
      have hm : m < rest.length := by simpa using hi
      simp only [List.getElem_cons_succ, List.eraseIdx_cons_succ]
      exact (List.Perm.swap c rest[m] (rest.eraseIdx m)).trans ((ih m hm).cons c)

/-- In-bounds `arrayMove` with equal indices is the identity. -/
theorem arrayMove_self {β : Type} (l : List (Option β)) (i : Nat) (hi : i < l.length) :
    arrayMove l (i : Int) (i : Int) = l := by
  rw [arrayMove_eq_insertIdx l i i hi hi]
  exact insertIdx_getElem_eraseIdx l i hi

/-! ## Step lemmas for the CSV line parser -/

theorem parse_nil (inQ : Bool) (cur : List Char) (acc : List (List Char)) :
    parseCSVChars [] inQ cur acc = acc ++ [cur] := by
  simp [parseCSVChars]

theorem parse_quote_quote (rest : List Char) (cur : List Char) (acc : List (List Char)) :
    parseCSVChars ('"' :: '"' :: rest) true cur acc
      = parseCSVChars rest true (cur ++ ['"']) acc := by
  simp [parseCSVChars]

theorem parse_quote_close (rest : List Char) (cur : List Char) (acc : List (List Char))
    (h : rest.head? ≠ some '"') :
    parseCSVChars ('"' :: rest) true cur acc = parseCSVChars rest false cur acc := by
  rw [parseCSVChars, if_pos rfl, if_pos rfl, if_neg h]

theorem parse_quote_open (rest : List Char) (cur : List Char) (acc : List (List Char)) :
    parseCSVChars ('"' :: rest) false cur acc = parseCSVChars rest true cur acc := by
  simp [parseCSVChars]

theorem parse_comma (rest : List Char) (cur : List Char) (acc : List (List Char)) :
    parseCSVChars (',' :: rest) false cur acc
      = parseCSVChars rest false [] (acc ++ [cur]) := by
  simp [parseCSVChars]

theorem parse_other (c : Char) (rest : List Char) (inQ : Bool) (cur : List Char)
    (acc : List (List Char)) (hq : c ≠ '"') (hc : c ≠ ',') :
    parseCSVChars (c :: rest) inQ cur acc = parseCSVChars rest inQ (cur ++ [c]) acc := by
  rw [parseCSVChars, if_neg hq, if_neg hc]

theorem parse_inq_ne_quote (c : Char) (rest : List Char) (cur : List Char)
    (acc : List (List Char)) (hq : c ≠ '"') :
    parseCSVChars (c :: rest) true cur acc = parseCSVChars rest true (cur ++ [c]) acc := by
  by_cases hc : c = ','
  · subst hc
    rw [parseCSVChars, if_neg hq, if_pos rfl, if_pos rfl]
  · exact parse_other c rest true cur acc hq hc

/-! ## Round trip of `escapeCSV` through `parseCSVLine` -/

theorem doubleQuotes_quote (rest : List Char) :
    doubleQuotes ('"' :: rest) = '"' :: '"' :: doubleQuotes rest := by
  simp [doubleQuotes]

theorem doubleQuotes_ne (c : Char) (rest : List Char) (h : c ≠ '"') :
    doubleQuotes (c :: rest) = c :: doubleQuotes rest := by
  rw [doubleQuotes, if_neg h]

/-- Consuming the doubled-quote body of a quoted field and its closing
quote: the parser appends the raw field and leaves quote mode, provided
the character after the closing quote is not another quote. -/
theorem parse_doubleQuotes (f : List Char) (s : List Char) (cur : List Char)
    (acc : List (List Char)) (h : s.head? ≠ some '"') :
    parseCSVChars (doubleQuotes f ++ '"' :: s) true cur acc
      = parseCSVChars s false (cur ++ f) acc := by
  induction f generalizing cur with
  | nil =>
    simp only [doubleQuotes, List.nil_append, List.append_nil]
    exact parse_quote_close s cur acc h
  | cons c f' ih =>
    by_cases hc : c = '"'
    · subst hc
      rw [doubleQuotes_quote, List.cons_append, List.cons_append, parse_quote_quote, ih]
      simp
    · rw [doubleQuotes_ne c f' hc, List.cons_append, parse_inq_ne_quote c _ cur acc hc, ih]
      simp

/-- Consuming an unquoted field (no quote, no comma). -/
theorem parse_unquoted (f : List Char) (s : List Char) (cur : List Char)
    (acc : List (List Char)) (h : ∀ c ∈ f, c ≠ '"' ∧ c ≠ ',') :
    parseCSVChars (f ++ s) false cur acc = parseCSVChars s false (cur ++ f) acc := by
  induction f generalizing cur with
  | nil => simp
  | cons c f' ih =>
    have hc := h c (by simp)
    rw [List.cons_append, parse_other c _ false cur acc hc.1 hc.2,
      ih (cur ++ [c]) (fun d hd => h d (List.mem_cons_of_mem c hd))]
    simp

theorem escape_eq_self (l : List Char) (h : needsQuote l = false) : escapeChars l = l := by
  unfold escapeChars
  rw [h]
  simp

/-- Consuming one `escapeCSV`-encoded field: the parser recovers the raw
field exactly, provided the next input character is not a quote. -/
theorem parse_escaped (f : List Char) (s : List Char) (cur : List Char)
    (acc : List (List Char)) (h : s.head? ≠ some '"') :
    parseCSVChars (escapeChars f ++ s) false cur acc
      = parseCSVChars s false (cur ++ f) acc := by
  unfold escapeChars
  split
  · show parseCSVChars (('"' :: (doubleQuotes f ++ ['"'])) ++ s) false cur acc = _
    rw [List.cons_append, List.append_assoc, List.singleton_append, parse_quote_open]
    exact parse_doubleQuotes f s cur acc h
  · rename_i hq
    apply parse_unquoted
    intro c hc
    simp only [needsQuote, List.any_eq_true, not_exists, Bool.not_eq_true] at hq
    have := hq c
    simp only [hc, true_and] at this
    constructor
    · intro he
      subst he
      simp_all
    · intro he
      subst he
      simp_all

theorem joinChar_cons₂ (sep : Char) (a b : List Char) (r : List (List Char)) :
    joinChar sep (a :: b :: r) = a ++ sep :: joinChar sep (b :: r) := by
  simp [joinChar]

/-- Parsing a comma-joined list of escaped fields recovers the fields,
with the pending prefix `cur` attached to the first field. -/
theorem parse_join_escaped (fs : List (List Char)) (f : List Char) (cur : List Char)
    (acc : List (List Char)) :
    parseCSVChars (joinChar ',' ((f :: fs).map escapeChars)) false cur acc
      = acc ++ (cur ++ f) :: fs := by
  induction fs generalizing f cur acc with
  | nil =>
    show parseCSVChars (joinChar ',' [escapeChars f]) false cur acc = _
    have : joinChar ',' [escapeChars f] = escapeChars f := by simp [joinChar]
    rw [this, ← List.append_nil (escapeChars f), parse_escaped f [] cur acc (by simp),
      parse_nil]
  | cons g gs ih =>
    show parseCSVChars (joinChar ',' (escapeChars f :: escapeChars g :: gs.map escapeChars))
        false cur acc = _
    rw [joinChar_cons₂, parse_escaped f _ cur acc (by simp), parse_comma]
    have := ih g [] (acc ++ [cur ++ f])
    simpa using this

/-! ## Lemmas about the line splitter and `jsTrim` -/

theorem splitRN_cons_other (c : Char) (rest cur : List Char) (hr : c ≠ '\r')
    (hn : c ≠ '\n') : splitRN (c :: rest) cur = splitRN rest (cur ++ [c]) := by
  rw [splitRN, if_neg hr, if_neg hn]

theorem splitRN_newline (line rest cur : List Char) (hn : '\n' ∉ line)
    (hr : '\r' ∉ line) :
    splitRN (line ++ '\n' :: rest) cur = (cur ++ line) :: splitRN rest [] := by
  induction line generalizing cur with
  | nil =>
    rw [List.nil_append, splitRN, if_neg (by decide), if_pos rfl]
    simp
  | cons c t ih =>
    have hc : c ≠ '\n' := fun he => hn (he ▸ List.mem_cons_self c t)
    have hcr : c ≠ '\r' := fun he => hr (he ▸ List.mem_cons_self c t)
    rw [List.cons_append, splitRN_cons_other c _ cur hcr hc,
      ih (cur ++ [c]) (fun hm => hn (List.mem_cons_of_mem c hm))
        (fun hm => hr (List.mem_cons_of_mem c hm))]
    simp

theorem splitRN_last (line cur : List Char) (hn : '\n' ∉ line) (hr : '\r' ∉ line) :
    splitRN line cur = [cur ++ line] := by
  induction line generalizing cur with
  | nil => simp [splitRN]
  | cons c t ih =>
    have hc : c ≠ '\n' := fun he => hn (he ▸ List.mem_cons_self c t)
    have hcr : c ≠ '\r' := fun he => hr (he ▸ List.mem_cons_self c t)
    rw [splitRN_cons_other c _ cur hcr hc,
      ih (cur ++ [c]) (fun hm => hn (List.mem_cons_of_mem c hm))
        (fun hm => hr (List.mem_cons_of_mem c hm))]
    simp

/-- Splitting a newline-joined list of CR/LF-free lines recovers the lines,
with the pending prefix `cur` attached to the first line. -/
theorem splitRN_joinChar (rows : List (List Char)) (r cur : List Char)
    (h : ∀ x ∈ r :: rows, '\n' ∉ x ∧ '\r' ∉ x) :
    splitRN (joinChar '\n' (r :: rows)) cur = (cur ++ r) :: rows := by
  induction rows generalizing r cur with
  | nil =>
    show splitRN (joinChar '\n' [r]) cur = _
    have : joinChar '\n' [r] = r := by simp [joinChar]
    rw [this, splitRN_last r cur (h r (by simp)).1 (h r (by simp)).2]
  | cons q qs ih =>
    rw [joinChar_cons₂ '\n' r q qs,
      splitRN_newline r _ cur (h r (by simp)).1 (h r (by simp)).2,
      ih q [] (fun x hx => h x (List.mem_cons_of_mem r hx))]
    simp

theorem mem_dropWhile_of_mem {c : Char} {l : List Char} (p : Char → Bool)
    (hm : c ∈ l) (hp : p c = false) : c ∈ l.dropWhile p := by
  induction l with
  | nil => simp at hm
  | cons a t ih =>
    by_cases ha : p a
    · rw [List.dropWhile_cons_of_pos ha]
      rcases List.mem_cons.mp hm with he | ht
      · subst he; simp [ha] at hp
      · exact ih ht
    · rw [List.dropWhile_cons_of_neg ha]
      exact hm

/-- A line containing a non-whitespace character does not trim to empty. -/
theorem jsTrim_ne_nil_of_mem (l : List Char) (c : Char) (hm : c ∈ l)
    (hc : isJsWS c = false) : jsTrim l ≠ [] := by
  unfold jsTrim
  intro hcon
  have h1 : c ∈ l.dropWhile isJsWS := mem_dropWhile_of_mem isJsWS hm hc
  have h2 : c ∈ (l.dropWhile isJsWS).reverse := List.mem_reverse.mpr h1
  have h3 : c ∈ (l.dropWhile isJsWS).reverse.dropWhile isJsWS :=
    mem_dropWhile_of_mem isJsWS h2 hc
  rw [← List.mem_reverse] at h3
  rw [hcon] at h3
  simp at h3

theorem comma_mem_joinChar (a b : List Char) (r : List (List Char)) :
    ',' ∈ joinChar ',' (a :: b :: r) := by
  rw [joinChar_cons₂]
  exact List.mem_append.mpr (Or.inr (List.mem_cons_self _ _))

/-- A string of non-whitespace characters trims to itself. -/
theorem jsTrim_eq_self (l : List Char) (h : ∀ c ∈ l, isJsWS c = false) :
    jsTrim l = l := by
  unfold jsTrim
  have h1 : l.dropWhile isJsWS = l := by
    cases l with
    | nil => rfl
    | cons c t => exact List.dropWhile_cons_of_neg (by simp [h c (by simp)])
  rw [h1]
  have h2 : l.reverse.dropWhile isJsWS = l.reverse := by
    cases hrev : l.reverse with
    | nil => rfl
    | cons c t =>
      refine List.dropWhile_cons_of_neg ?_
      have : c ∈ l := by
        rw [← List.mem_reverse, hrev]
        simp
      simp [h c this]
  rw [h2, List.reverse_reverse]

/-! ## Lemmas about number printing and parsing -/

theorem natToChars_ne_nil (n : Nat) : natToChars n ≠ [] := by
  rw [natToChars]
  split <;> simp

theorem isDigit_digitChar (d : Nat) (hd : d < 10) : (Nat.digitChar d).isDigit = true := by
  interval_cases d <;> decide

theorem toNat_digitChar (d : Nat) (hd : d < 10) : (Nat.digitChar d).toNat - 48 = d := by
  interval_cases d <;> decide

theorem mem_natToChars_isDigit (n : Nat) : ∀ c ∈ natToChars n, c.isDigit = true := by
  induction n using Nat.strong_induction_on with
  | _ n ih =>
    intro c hc
    rw [natToChars] at hc
    split at hc
    · rename_i h
      simp only [List.mem_singleton] at hc
      subst hc
      exact isDigit_digitChar n h
    · rename_i h
      rcases List.mem_append.mp hc with hm | hm
      · exact ih (n / 10) (Nat.div_lt_self (by omega) (by omega)) c hm
      · simp only [List.mem_singleton] at hm
        subst hm
        exact isDigit_digitChar (n % 10) (Nat.mod_lt n (by omega))

theorem digitsToNatAux_nil (acc : Nat) : digitsToNatAux [] acc = some acc := rfl

theorem digitsToNatAux_cons (c : Char) (rest : List Char) (acc : Nat) :
    digitsToNatAux (c :: rest) acc =
      if c.isDigit then digitsToNatAux rest (acc * 10 + (c.toNat - 48)) else none := rfl

theorem digitsToNatAux_append (a b : List Char) (acc : Nat) :
    digitsToNatAux (a ++ b) acc =
      (digitsToNatAux a acc).bind (fun m => digitsToNatAux b m) := by
  induction a generalizing acc with
  | nil => simp [digitsToNatAux_nil, Option.bind]
  | cons c t ih =>
    rw [List.cons_append, digitsToNatAux_cons, digitsToNatAux_cons]
    by_cases hc : c.isDigit
    · rw [if_pos hc, if_pos hc, ih]
    · rw [if_neg hc, if_neg hc]
      rfl

theorem digitsToNatAux_natToChars (n : Nat) (acc : Nat) :
    digitsToNatAux (natToChars n) acc
      = some (acc * 10 ^ (natToChars n).length + n) := by
  induction n using Nat.strong_induction_on generalizing acc with
  | _ n ih =>
    rw [natToChars]
    split
    · rename_i h
      rw [digitsToNatAux_cons, if_pos (isDigit_digitChar n h), digitsToNatAux_nil,
        toNat_digitChar n h]
      simp
    · rename_i h
      rw [digitsToNatAux_append]
      rw [ih (n / 10) (Nat.div_lt_self (by omega) (by omega)) acc]
      rw [Option.some_bind]
      have h10 : n % 10 < 10 := Nat.mod_lt n (by omega)
      rw [digitsToNatAux_cons, if_pos (isDigit_digitChar _ h10), digitsToNatAux_nil,
        toNat_digitChar _ h10]
      have hlen : (natToChars (n / 10) ++ [Nat.digitChar (n % 10)]).length
          = (natToChars (n / 10)).length + 1 := by simp
      rw [hlen]
      congr 1
      rw [pow_succ]
      have := Nat.div_add_mod n 10
      ring_nf
      omega

theorem digitsToNat_natToChars (n : Nat) : digitsToNat? (natToChars n) = some n := by
  have hne := natToChars_ne_nil n
  rw [digitsToNat?.eq_def]
  split
  · exact absurd (by assumption) hne
  · rw [digitsToNatAux_natToChars n 0]
    simp

theorem jsNumberCore_cons (c : Char) (rest : List Char) :
    jsNumberCore (c :: rest) =
      if c = '-' then (digitsToNat? rest).map (fun n => -(n : Int))
      else if c = '+' then (digitsToNat? rest).map (fun n => (n : Int))
      else (digitsToNat? (c :: rest)).map (fun n => (n : Int)) := rfl

theorem isJsWS_of_isDigit (c : Char) (h : c.isDigit = true) : isJsWS c = false := by
  simp only [Char.isDigit, decide_eq_true_eq] at h
  simp only [isJsWS, Bool.or_eq_false_iff, beq_eq_false_iff_ne, ne_eq]
  refine ⟨⟨⟨⟨⟨⟨⟨?_, ?_⟩, ?_⟩, ?_⟩, ?_⟩, ?_⟩, ?_⟩, ?_⟩ <;>
    · intro he
      subst he
      revert h
      decide

/-- `Number(String(v)) = v` for every integer-valued JS number `v`. -/
theorem jsNumber_intToChars (v : Int) : jsNumber? (intToChars v) = some v := by
  unfold intToChars
  split
  · rename_i hv
    have hdig := mem_natToChars_isDigit (-v).toNat
    have htrim : jsTrim ('-' :: natToChars (-v).toNat) = '-' :: natToChars (-v).toNat := by
      apply jsTrim_eq_self
      intro c hc
      rcases List.mem_cons.mp hc with he | hm
      · subst he; decide
      · exact isJsWS_of_isDigit c (hdig c hm)
    rw [jsNumber?, htrim, jsNumberCore_cons]
    rw [if_pos rfl, digitsToNat_natToChars]
    show some (-(((-v).toNat : Nat) : Int)) = some v
    congr 1
    omega
  · rename_i hv
    have hdig := mem_natToChars_isDigit v.toNat
    have htrim : jsTrim (natToChars v.toNat) = natToChars v.toNat :=
      jsTrim_eq_self _ (fun c hc => isJsWS_of_isDigit c (hdig c hc))
    obtain ⟨c, t, hct⟩ : ∃ c t, natToChars v.toNat = c :: t := by
      cases hh : natToChars v.toNat with
      | nil => exact absurd hh (natToChars_ne_nil _)
      | cons c t => exact ⟨c, t, rfl⟩
    have hcd : c.isDigit = true := hdig c (by rw [hct]; simp)
    have hcm : c ≠ '-' := by
      intro he
      subst he
      revert hcd
      decide
    have hcp : c ≠ '+' := by
      intro he
      subst he
      revert hcd
      decide
    rw [jsNumber?, htrim, hct, jsNumberCore_cons]
    rw [if_neg hcm, if_neg hcp, ← hct, digitsToNat_natToChars]
    show some (((v.toNat : Nat) : Int)) = some v
    congr 1
    omega

/-- Digits (and a possible leading minus) never need CSV quoting. -/
theorem needsQuote_intToChars (v : Int) : needsQuote (intToChars v) = false := by
  rw [needsQuote, List.any_eq_false]
  intro c hc
  have hd : c.isDigit = true ∨ c = '-' := by
    unfold intToChars at hc
    split at hc
    · rcases List.mem_cons.mp hc with he | hm
      · exact Or.inr he
      · exact Or.inl (mem_natToChars_isDigit _ c hm)
    · exact Or.inl (mem_natToChars_isDigit _ c hc)
  simp only [Bool.or_eq_true, beq_iff_eq, not_or]
  rcases hd with hd | hd
  · refine ⟨⟨?_, ?_⟩, ?_⟩ <;>
      · intro he
        subst he
        revert hd
        decide
  · subst hd
    exact ⟨⟨by decide, by decide⟩, by decide⟩

/-! ## Lemmas about the leader fold -/

theorem leader_cons (s : Software) (rest : List Software) :
    leader (s :: rest) = some (rest.foldl leaderStep s) := rfl

/-- Characterisation of the leader fold: the result is either the seed
(strictly greater than everything folded over) or the last element of the
list attaining the maximum total. -/
theorem foldl_leaderStep_spec (l : List Software) (a : Software) :
    (l.foldl leaderStep a = a ∧ ∀ x ∈ l, totalScore x < totalScore a) ∨
    (∃ k, ∃ hk : k < l.length, l.foldl leaderStep a = l[k] ∧
      totalScore a ≤ totalScore l[k] ∧
      (∀ x ∈ l, totalScore x ≤ totalScore l[k]) ∧
      (∀ m, ∀ hm : m < l.length, k < m → totalScore l[m] < totalScore l[k])) := by
  induction l using List.reverseRecOn with
  | nil => exact Or.inl ⟨rfl, by simp⟩
  | append_singleton l x ih =>
    rw [List.foldl_append]
    simp only [List.foldl_cons, List.foldl_nil]
    rcases ih with ⟨heq, hlt⟩ | ⟨k, hk, heq, hle, hall, hafter⟩
    · rw [heq]
      unfold leaderStep
      by_cases hcmp : totalScore a > totalScore x
      · rw [if_pos hcmp]
        refine Or.inl ⟨rfl, ?_⟩
        intro y hy
        rcases List.mem_append.mp hy with hy | hy
        · exact hlt y hy
        · simp only [List.mem_singleton] at hy
          subst hy; exact hcmp
      · rw [if_neg hcmp]
        refine Or.inr ⟨l.length, by simp, ?_, ?_, ?_, ?_⟩
        · simp
        · simp only [List.getElem_concat_length]
          omega
        · intro y hy
          simp only [List.getElem_concat_length]
          rcases List.mem_append.mp hy with hy | hy
          · exact le_of_lt (lt_of_lt_of_le (hlt y hy) (by omega))
          · simp only [List.mem_singleton] at hy
            subst hy; exact le_refl _
        · intro m hm hgt
          simp only [List.length_append, List.length_singleton] at hm
          omega
    · rw [heq]
      unfold leaderStep
      by_cases hcmp : totalScore l[k] > totalScore x
      · rw [if_pos hcmp]
        have hk' : k < (l ++ [x]).length := by simp; omega
        refine Or.inr ⟨k, hk', ?_, ?_, ?_, ?_⟩
        · rw [List.getElem_append_left hk]
        · rw [List.getElem_append_left hk]; exact hle
        · intro y hy
          rw [List.getElem_append_left hk]
          rcases List.mem_append.mp hy with hy | hy
          · exact hall y hy
          · simp only [List.mem_singleton] at hy
            subst hy; exact le_of_lt hcmp
        · intro m hm hgt
          rw [List.getElem_append_left hk]
          simp only [List.length_append, List.length_singleton] at hm
          by_cases hml : m < l.length
          · rw [List.getElem_append_left hml]
            exact hafter m hml hgt
          · have : m = l.length := by omega
            subst this
            simpa [List.getElem_concat_length] using hcmp
      · rw [if_neg hcmp]
        refine Or.inr ⟨l.length, by simp, by simp, ?_, ?_, ?_⟩
        · simp only [List.getElem_concat_length]
          exact le_trans hle (by omega)
        · intro y hy
          simp only [List.getElem_concat_length]
          rcases List.mem_append.mp hy with hy | hy
          · exact le_trans (hall y hy) (by omega)
          · simp only [List.mem_singleton] at hy
            subst hy; exact le_refl _
        · intro m hm hgt
          simp only [List.length_append, List.length_singleton] at hm
          omega

/-! ## Lemmas about the minted shapes -/

theorem mintedDims_nil (genId : Nat → String) (k : Nat) : mintedDims genId [] k = [] := rfl

theorem mintedDims_cons (genId : Nat → String) (d : Dimension) (rest : List Dimension)
    (k : Nat) :
    mintedDims genId (d :: rest) k
      = { id := mintDimId genId d.name.data k, name := d.name }
        :: mintedDims genId rest (k + 1) := rfl

theorem mintedVals_nil {V : Type} (genId : Nat → String) (f : Dimension → V) (k : Nat) :
    mintedVals genId f [] k = [] := rfl

theorem mintedVals_cons {V : Type} (genId : Nat → String) (f : Dimension → V)
    (d : Dimension) (rest : List Dimension) (k : Nat) :
    mintedVals genId f (d :: rest) k
      = (mintDimId genId d.name.data k, f d) :: mintedVals genId f rest (k + 1) := rfl

theorem mintedDims_append (genId : Nat → String) (P Q : List Dimension) (k : Nat) :
    mintedDims genId (P ++ Q) k = mintedDims genId P k ++ mintedDims genId Q (k + P.length) := by
  induction P generalizing k with
  | nil => simp [mintedDims_nil]
  | cons d rest ih =>
    rw [List.cons_append, mintedDims_cons, mintedDims_cons, ih (k + 1), List.cons_append,
      List.length_cons]
    have h : k + (rest.length + 1) = k + 1 + rest.length := by omega
    rw [h]

theorem mintedVals_append {V : Type} (genId : Nat → String) (f : Dimension → V)
    (P Q : List Dimension) (k : Nat) :
    mintedVals genId f (P ++ Q) k
      = mintedVals genId f P k ++ mintedVals genId f Q (k + P.length) := by
  induction P generalizing k with
  | nil => simp [mintedVals_nil]
  | cons d rest ih =>
    rw [List.cons_append, mintedVals_cons, mintedVals_cons, ih (k + 1), List.cons_append,
      List.length_cons]
    have h : k + (rest.length + 1) = k + 1 + rest.length := by omega
    rw [h]

theorem map_name_mintedDims (genId : Nat → String) (L : List Dimension) (k : Nat) :
    (mintedDims genId L k).map (fun d => d.name) = L.map (fun d => d.name) := by
  induction L generalizing k with
  | nil => rfl
  | cons d rest ih => simp [mintedDims, ih]

theorem length_mintedDims (genId : Nat → String) (L : List Dimension) (k : Nat) :
    (mintedDims genId L k).length = L.length := by
  induction L generalizing k with
  | nil => rfl
  | cons d rest ih => simp [mintedDims, ih]

theorem getElem?_mintedDims (genId : Nat → String) (L : List Dimension) (b k : Nat)
    (d : Dimension) (hk : L[k]? = some d) :
    (mintedDims genId L b)[k]?
      = some { id := mintDimId genId d.name.data (b + k), name := d.name } := by
  induction L generalizing b k with
  | nil => simp at hk
  | cons e rest ih =>
    cases k with
    | zero =>
      simp only [List.getElem?_cons_zero, Option.some.injEq] at hk
      subst hk
      simp [mintedDims]
    | succ m =>
      simp only [List.getElem?_cons_succ] at hk
      simp only [mintedDims, List.getElem?_cons_succ]
      have h : b + (m + 1) = b + 1 + m := by omega
      rw [h]
      exact ih (b + 1) m hk

theorem mem_mintedVals {V : Type} (genId : Nat → String) (f : Dimension → V)
    (L : List Dimension) (b : Nat) (p : String × V) (hp : p ∈ mintedVals genId f L b) :
    ∃ j dj, L[j]? = some dj ∧ p.1 = mintDimId genId dj.name.data (b + j) := by
  induction L generalizing b with
  | nil => simp [mintedVals_nil] at hp
  | cons e rest ih =>
    rw [mintedVals_cons] at hp
    rcases List.mem_cons.mp hp with he | hm
    · exact ⟨0, e, by simp, by rw [he]; simp⟩
    · obtain ⟨j, dj, hj, hid⟩ := ih (b + 1) hm
      exact ⟨j + 1, dj, by simpa using hj, by rw [hid]; congr 1; omega⟩

theorem objGet_mintedVals {V : Type} (genId : Nat → String) (f : Dimension → V)
    (L : List Dimension) (b k : Nat) (d : Dimension) (hk : L[k]? = some d)
    (hne : ∀ j dj, j < k → L[j]? = some dj →
      mintDimId genId dj.name.data (b + j) ≠ mintDimId genId d.name.data (b + k)) :
    objGet (mintedVals genId f L b) (mintDimId genId d.name.data (b + k)) = some (f d) := by
  induction L generalizing b k with
  | nil => simp at hk
  | cons e rest ih =>
    cases k with
    | zero =>
      simp only [List.getElem?_cons_zero, Option.some.injEq] at hk
      subst hk
      rw [mintedVals_cons]
      unfold objGet
      simp only [Nat.add_zero]
      rw [List.find?_cons_of_pos _ (by simp)]
      rfl
    | succ m =>
      simp only [List.getElem?_cons_succ] at hk
      rw [mintedVals_cons]
      unfold objGet
      rw [findKey_cons_of_ne _ _ _ (by
        have := hne 0 e (by omega) (by simp)
        simpa using this)]
      have := ih (b + 1) m hk (fun j dj hj hjd => by
        have := hne (j + 1) dj (by omega) (by simpa using hjd)
        have harith : b + (j + 1) = b + 1 + j := by omega
        have harith2 : b + (m + 1) = b + 1 + m := by omega
        rw [harith, harith2] at this
        exact this)
      unfold objGet at this
      have harith2 : b + (m + 1) = b + 1 + m := by omega
      rw [harith2]
      exact this

/-! ## Lemmas about subject reconciliation -/

theorem find_name_self (S : List Software) (s : Software) (hs : s ∈ S)
    (hnd : (S.map (fun x => x.name)).Nodup) :
    S.find? (fun x => x.name.data == s.name.data) = some s := by
  induction S with
  | nil => simp at hs
  | cons x rest ih =>
    simp only [List.map_cons, List.nodup_cons] at hnd
    rcases List.mem_cons.mp hs with he | hm
    · subst he
      exact List.find?_cons_of_pos _ (by simp)
    · have hxne : x.name ≠ s.name := by
        intro he
        exact hnd.1 (he ▸ List.mem_map.mpr ⟨s, hm, rfl⟩)
      rw [List.find?_cons_of_neg _ (by
        simp only [beq_eq_false_iff_ne, ne_eq, Bool.not_eq_true, beq_eq_false_iff_ne]
        intro hd
        exact hxne (String.ext hd))]
      exact ih hm hnd.2

theorem mintSubjects_roundtrip (genId genColor : Nat → String) (S₀ : List Software)
    (S : List Software) (ctr : Nat)
    (h : ∀ s ∈ S, jsTrim s.name.data = s.name.data ∧
        S₀.find? (fun x => x.name.data == jsTrim s.name.data) = some s) :
    mintSubjects genId genColor S₀ (S.map (fun s => s.name.data)) ctr
      = (S.map (fun s =>
          { id := s.id, name := s.name, color := s.color
          , scores := [], descriptions := [] }), ctr) := by
  induction S generalizing ctr with
  | nil => simp [mintSubjects]
  | cons s rest ih =>
    have hs := h s (by simp)
    simp only [List.map_cons, mintSubjects, hs.2]
    rw [ih ctr (fun x hx => h x (by simp [hx]))]
    simp [hs.1]

/-! ## Lemmas about row processing -/

theorem applyValues_map {A : Type} (t : List Char) (dimId : String)
    (f : A → List Char) (g : A → Software) (L : List A) :
    applyValues t dimId (L.map f) (L.map g)
      = L.map (fun a => applyCell t dimId (f a) (g a)) := by
  induction L with
  | nil => rfl
  | cons a rest ih => simp [applyValues, ih]

theorem applyValues_length (t : List Char) (dimId : String) (vs : List (List Char))
    (sws : List Software) : (applyValues t dimId vs sws).length = sws.length := by
  induction vs generalizing sws with
  | nil => cases sws <;> rfl
  | cons v rest ih =>
    cases sws with
    | nil => rfl
    | cons sw tail => simp [applyValues, ih]

theorem applyCell_score (dimId : String) (val : List Char) (sw : Software) :
    applyCell "score".data dimId val sw
      = { sw with scores := objSet sw.scores dimId ((jsNumber? val).getD 0) } := by
  rw [applyCell, if_pos rfl]

theorem applyCell_description (dimId : String) (val : List Char) (sw : Software) :
    applyCell "description".data dimId val sw
      = { sw with descriptions := objSet sw.descriptions dimId ⟨val⟩ } := by
  rw [applyCell, if_neg (by decide), if_pos rfl]

/-! ## Character membership in export rows -/

theorem mem_doubleQuotes (c : Char) (l : List Char) (hc : c ∈ doubleQuotes l) :
    c ∈ l ∨ c = '"' := by
  induction l with
  | nil => simp [doubleQuotes] at hc
  | cons a rest ih =>
    rw [doubleQuotes] at hc
    split at hc
    · rcases List.mem_cons.mp hc with he | hc2
      · exact Or.inr he
      · rcases List.mem_cons.mp hc2 with he | hc3
        · exact Or.inr he
        · rcases ih hc3 with hm | he
          · exact Or.inl (List.mem_cons_of_mem a hm)
          · exact Or.inr he
    · rcases List.mem_cons.mp hc with he | hc2
      · exact Or.inl (he ▸ List.mem_cons_self a rest)
      · rcases ih hc2 with hm | he
        · exact Or.inl (List.mem_cons_of_mem a hm)
        · exact Or.inr he

theorem mem_escapeChars (c : Char) (l : List Char) (hc : c ∈ escapeChars l) :
    c ∈ l ∨ c = '"' := by
  unfold escapeChars at hc
  split at hc
  · rcases List.mem_cons.mp hc with he | hc2
    · exact Or.inr he
    · rcases List.mem_append.mp hc2 with hm | hm
      · exact mem_doubleQuotes c l hm
      · simp only [List.mem_singleton] at hm
        exact Or.inr hm
  · exact Or.inl hc

theorem mem_joinChar (c : Char) (sep : Char) (fs : List (List Char))
    (hc : c ∈ joinChar sep fs) : c = sep ∨ ∃ f ∈ fs, c ∈ f := by
  induction fs with
  | nil => simp [joinChar] at hc
  | cons f rest ih =>
    cases rest with
    | nil =>
      have : joinChar sep [f] = f := by simp [joinChar]
      rw [this] at hc
      exact Or.inr ⟨f, by simp, hc⟩
    | cons g tail =>
      rw [joinChar_cons₂] at hc
      rcases List.mem_append.mp hc with hm | hm
      · exact Or.inr ⟨f, by simp, hm⟩
      · rcases List.mem_cons.mp hm with he | hm2
        · exact Or.inl he
        · rcases ih hm2 with he | ⟨f', hf', hcf⟩
          · exact Or.inl he
          · exact Or.inr ⟨f', List.mem_cons_of_mem f hf', hcf⟩

/-! ## Parsed shape of the export rows -/

theorem parse_scoreRow (S : List Software) (d : Dimension) :
    parseCSVChars (scoreRowChars S d) false [] []
      = d.name.data :: "Score".data :: S.map (fun s => intToChars (exportScore s d.id)) := by
  have hrow : scoreRowChars S d
      = joinChar ',' ((d.name.data :: "Score".data ::
          S.map (fun s => intToChars (exportScore s d.id))).map escapeChars) := by
    have hmap : S.map (fun s => intToChars (exportScore s d.id))
        = S.map (escapeChars ∘ fun s => intToChars (exportScore s d.id)) := by
      apply List.map_congr_left
      intro s _
      simp only [Function.comp_apply]
      rw [escape_eq_self _ (needsQuote_intToChars _)]
    rw [scoreRowChars]
    conv_rhs => rw [List.map_cons, List.map_cons, List.map_map]
    rw [← hmap, show escapeChars "Score".data = "Score".data from by decide]
  rw [hrow, parse_join_escaped]
  simp

theorem parse_descRow (S : List Software) (d : Dimension) :
    parseCSVChars (descRowChars S d) false [] []
      = d.name.data :: "Description".data :: S.map (fun s => (exportDesc s d.id).data) := by
  have hrow : descRowChars S d
      = joinChar ',' ((d.name.data :: "Description".data ::
          S.map (fun s => (exportDesc s d.id).data)).map escapeChars) := by
    rw [descRowChars]
    conv_rhs => rw [List.map_cons, List.map_cons, List.map_map]
    rw [show escapeChars "Description".data = "Description".data from by decide]
    rfl
  rw [hrow, parse_join_escaped]
  simp

theorem parse_headerRow (S : List Software) :
    parseCSVChars ('﻿' :: headerRowChars S) false [] []
      = ('﻿' :: "Dimension".data) :: "Type".data :: S.map (fun s => s.name.data) := by
  have hrow : headerRowChars S
      = joinChar ',' (("Dimension".data :: "Type".data ::
          S.map (fun s => s.name.data)).map escapeChars) := by
    rw [headerRowChars]
    conv_rhs => rw [List.map_cons, List.map_cons, List.map_map]
    rw [show escapeChars "Dimension".data = "Dimension".data from by decide,
      show escapeChars "Type".data = "Type".data from by decide]
    rfl
  rw [parse_other '﻿' _ false [] [] (by decide) (by decide), hrow, parse_join_escaped]
  simp

/-! ## Dimension reconciliation lemmas -/

theorem mem_mintedDims_name (genId : Nat → String) (P : List Dimension) (b : Nat)
    (x : Dimension) (hx : x ∈ mintedDims genId P b) :
    x.name ∈ P.map (fun d => d.name) := by
  rw [← map_name_mintedDims genId P b]
  exact List.mem_map.mpr ⟨x, hx, rfl⟩

theorem find_none_mintedDims (genId : Nat → String) (P : List Dimension) (b : Nat)
    (nm : List Char) (h : ∀ x ∈ P, x.name.data ≠ nm) :
    (mintedDims genId P b).find? (fun dd => dd.name.data == nm) = none := by
  rw [List.find?_eq_none]
  intro x hx
  have hxn := mem_mintedDims_name genId P b x hx
  obtain ⟨y, hy, he⟩ := List.mem_map.mp hxn
  simp only [beq_eq_false_iff_ne, ne_eq, Bool.not_eq_true, beq_eq_false_iff_ne]
  rw [← he]
  exact h y hy

/-! ## Step lemmas for row processing -/

theorem processFields_found (genId : Nat → String) (st : ImpSt) (f0 f1 : List Char)
    (values : List (List Char)) (dim : Dimension) (hne : ¬values = [])
    (hfind : st.dims.find? (fun d => d.name.data == jsTrim f0) = some dim) :
    processFields genId st (f0 :: f1 :: values)
      = { st with sws := applyValues (lowerChars (jsTrim f1)) dim.id values st.sws } := by
  unfold processFields
  simp only [if_neg hne, hfind]

theorem processFields_none (genId : Nat → String) (st : ImpSt) (f0 f1 : List Char)
    (values : List (List Char)) (hne : ¬values = [])
    (hfind : st.dims.find? (fun d => d.name.data == jsTrim f0) = none) :
    processFields genId st (f0 :: f1 :: values)
      = { dims := st.dims ++ [{ id := mintDimId genId (jsTrim f0) st.ctr
                              , name := ⟨jsTrim f0⟩ }]
        , ctr := st.ctr + 1
        , sws := applyValues (lowerChars (jsTrim f1))
            (mintDimId genId (jsTrim f0) st.ctr) values st.sws } := by
  unfold processFields
  simp only [if_neg hne, hfind]

/-- The id minted for the next dimension is fresh for every map built over
the already-processed prefix, by injectivity of the id supply. -/
theorem fresh_key_mintedVals {V : Type} (genId : Nat → String) (f : Dimension → V)
    (D P : List Dimension) (d : Dimension) (rest : List Dimension)
    (hD : D = P ++ d :: rest)
    (hFresh : ∀ i j di dj, D[i]? = some di → D[j]? = some dj →
      mintDimId genId di.name.data i = mintDimId genId dj.name.data j → i = j) :
    ∀ p ∈ mintedVals genId f P 0, p.1 ≠ mintDimId genId d.name.data P.length := by
  intro p hp he
  obtain ⟨j, dj, hj, hid⟩ := mem_mintedVals genId _ P 0 p hp
  rw [Nat.zero_add] at hid
  have hjlt : j < P.length := by
    rcases List.getElem?_eq_some.mp hj with ⟨h, _⟩
    exact h
  have hDj : D[j]? = some dj := by
    rw [hD, List.getElem?_append, if_pos hjlt]
    exact hj
  have hDd : D[P.length]? = some d := by
    rw [hD, List.getElem?_append, if_neg (by omega)]
    simp
  have := hFresh j P.length dj d hDj hDd (by rw [← hid]; exact he)
  omega

/-- Processing the exported `Score` row of the next dimension `d`: the
dimension is minted (its name is new by name-distinctness) and every
subject's scores map gains the exported score under the minted id. -/
theorem processRow_scoreRow (genId : Nat → String) (D : List Dimension)
    (S : List Software) (P : List Dimension) (d : Dimension) (rest : List Dimension)
    (hD : D = P ++ d :: rest)
    (hDnd : (D.map (fun x => x.name)).Nodup)
    (hDtrim : ∀ x ∈ D, jsTrim x.name.data = x.name.data)
    (hSne : S ≠ [])
    (hFresh : ∀ i j di dj, D[i]? = some di → D[j]? = some dj →
      mintDimId genId di.name.data i = mintDimId genId dj.name.data j → i = j) :
    processRow genId
      { dims := mintedDims genId P 0, sws := S.map (importedSw genId P), ctr := P.length }
      (scoreRowChars S d)
    = { dims := mintedDims genId (P ++ [d]) 0
      , sws := S.map (fun s =>
          { id := s.id, name := s.name, color := s.color
          , scores := mintedVals genId (fun x => exportScore s x.id) (P ++ [d]) 0
          , descriptions := mintedVals genId (fun x => exportDesc s x.id) P 0 })
      , ctr := P.length + 1 } := by
  have hdmem : d ∈ D := by rw [hD]; exact List.mem_append.mpr (Or.inr (by simp))
  have hdtrim := hDtrim d hdmem
  have hPne : ∀ x ∈ P, x.name.data ≠ d.name.data := by
    intro x hx he
    have hx' : x.name = d.name := String.ext he
    have hnd := hDnd
    rw [hD, List.map_append, List.map_cons] at hnd
    have hdisj := List.disjoint_of_nodup_append hnd
    exact hdisj (List.mem_map.mpr ⟨x, hx, rfl⟩) (hx' ▸ List.mem_cons_self _ _)
  have hfind : (mintedDims genId P 0).find? (fun dd => dd.name.data == jsTrim d.name.data)
      = none := by
    rw [hdtrim]
    exact find_none_mintedDims genId P 0 d.name.data hPne
  have hfreshkey : ∀ (s : Software),
      ∀ p ∈ mintedVals genId (fun x => exportScore s x.id) P 0,
        p.1 ≠ mintDimId genId d.name.data P.length :=
    fun s => fresh_key_mintedVals genId _ D P d rest hD hFresh
  have hsws : applyValues "score".data (mintDimId genId d.name.data P.length)
      (S.map (fun s => intToChars (exportScore s d.id))) (S.map (importedSw genId P))
      = S.map (fun s =>
          { id := s.id, name := s.name, color := s.color
          , scores := mintedVals genId (fun x => exportScore s x.id) (P ++ [d]) 0
          , descriptions := mintedVals genId (fun x => exportDesc s x.id) P 0 }) := by
    rw [applyValues_map]
    apply List.map_congr_left
    intro s _
    rw [applyCell_score, jsNumber_intToChars]
    simp only [importedSw, Option.getD_some]
    rw [objSet_append _ _ _ (hfreshkey s), mintedVals_append]
    simp [mintedVals_cons, mintedVals_nil, Nat.zero_add]
  rw [processRow, parse_scoreRow]
  rw [processFields_none genId _ _ _ _ (by simpa using hSne) hfind]
  dsimp only
  rw [show lowerChars (jsTrim "Score".data) = "score".data from by decide]
  rw [hdtrim, hsws, mintedDims_append, mintedDims_cons, mintedDims_nil, Nat.zero_add]

/-- Processing the exported `Description` row of the dimension `d` just
minted by its `Score` row: the dimension is found by name, and every
subject's descriptions map gains the exported description. -/
theorem processRow_descRow (genId : Nat → String) (D : List Dimension)
    (S : List Software) (P : List Dimension) (d : Dimension) (rest : List Dimension)
    (hD : D = P ++ d :: rest)
    (hDnd : (D.map (fun x => x.name)).Nodup)
    (hDtrim : ∀ x ∈ D, jsTrim x.name.data = x.name.data)
    (hSne : S ≠ [])
    (hFresh : ∀ i j di dj, D[i]? = some di → D[j]? = some dj →
      mintDimId genId di.name.data i = mintDimId genId dj.name.data j → i = j) :
    processRow genId
      { dims := mintedDims genId (P ++ [d]) 0
      , sws := S.map (fun s =>
          { id := s.id, name := s.name, color := s.color
          , scores := mintedVals genId (fun x => exportScore s x.id) (P ++ [d]) 0
          , descriptions := mintedVals genId (fun x => exportDesc s x.id) P 0 })
      , ctr := P.length + 1 }
      (descRowChars S d)
    = { dims := mintedDims genId (P ++ [d]) 0
      , sws := S.map (importedSw genId (P ++ [d]))
      , ctr := P.length + 1 } := by
  have hdmem : d ∈ D := by rw [hD]; exact List.mem_append.mpr (Or.inr (by simp))
  have hdtrim := hDtrim d hdmem
  have hPne : ∀ x ∈ P, x.name.data ≠ d.name.data := by
    intro x hx he
    have hx' : x.name = d.name := String.ext he
    have hnd := hDnd
    rw [hD, List.map_append, List.map_cons] at hnd
    have hdisj := List.disjoint_of_nodup_append hnd
    exact hdisj (List.mem_map.mpr ⟨x, hx, rfl⟩) (hx' ▸ List.mem_cons_self _ _)
  have hfind : (mintedDims genId (P ++ [d]) 0).find?
      (fun dd => dd.name.data == jsTrim d.name.data)
      = some { id := mintDimId genId d.name.data P.length, name := d.name } := by
    rw [hdtrim, mintedDims_append, List.find?_append,
      find_none_mintedDims genId P 0 d.name.data hPne, mintedDims_cons, mintedDims_nil,
      Nat.zero_add]
    rw [List.find?_cons_of_pos _ (by simp)]
    rfl
  have hsws : applyValues "description".data (mintDimId genId d.name.data P.length)
      (S.map (fun s => (exportDesc s d.id).data))
      (S.map (fun s =>
        { id := s.id, name := s.name, color := s.color
        , scores := mintedVals genId (fun x => exportScore s x.id) (P ++ [d]) 0
        , descriptions := mintedVals genId (fun x => exportDesc s x.id) P 0 }))
      = S.map (importedSw genId (P ++ [d])) := by
    rw [applyValues_map]
    apply List.map_congr_left
    intro s _
    rw [applyCell_description]
    simp only [importedSw]
    rw [objSet_append _ _ _ (fresh_key_mintedVals genId _ D P d rest hD hFresh)]
    rw [mintedVals_append genId (fun x => exportDesc s x.id) P [d] 0]
    rw [mintedVals_cons, mintedVals_nil, Nat.zero_add]
  rw [processRow, parse_descRow]
  rw [processFields_found genId _ _ _ _ _ (by simpa using hSne) hfind]
  dsimp only
  rw [show lowerChars (jsTrim "Description".data) = "description".data from by decide]
  rw [hsws]

/-- Folding the importer's row loop over the exported data rows of the
remaining dimensions extends the resolved state to all of `D`. -/
theorem processRows_roundtrip (genId : Nat → String) (D : List Dimension)
    (S : List Software)
    (hDnd : (D.map (fun x => x.name)).Nodup)
    (hDtrim : ∀ x ∈ D, jsTrim x.name.data = x.name.data)
    (hSne : S ≠ [])
    (hFresh : ∀ i j di dj, D[i]? = some di → D[j]? = some dj →
      mintDimId genId di.name.data i = mintDimId genId dj.name.data j → i = j) :
    ∀ (Dsuf P : List Dimension), D = P ++ Dsuf →
    (Dsuf.flatMap (fun d => [scoreRowChars S d, descRowChars S d])).foldl
        (processRow genId)
        { dims := mintedDims genId P 0, sws := S.map (importedSw genId P), ctr := P.length }
      = { dims := mintedDims genId D 0, sws := S.map (importedSw genId D)
        , ctr := D.length } := by
  intro Dsuf
  induction Dsuf with
  | nil =>
    intro P hP
    rw [List.append_nil] at hP
    subst hP
    rfl
  | cons d rest ih =>
    intro P hP
    rw [List.flatMap_cons, List.cons_append, List.cons_append, List.nil_append,
      List.foldl_cons, List.foldl_cons]
    rw [processRow_scoreRow genId D S P d rest hP hDnd hDtrim hSne hFresh]
    rw [processRow_descRow genId D S P d rest hP hDnd hDtrim hSne hFresh]
    have hih := ih (P ++ [d]) (by rw [hP, List.append_assoc]; rfl)
    have hlen : (P ++ [d]).length = P.length + 1 := by simp
    rw [hlen] at hih
    exact hih

/-! ## The export rows contain no line-ending characters -/

theorem mem_intToChars (v : Int) (c : Char) (hc : c ∈ intToChars v) :
    c.isDigit = true ∨ c = '-' := by
  unfold intToChars at hc
  split at hc
  · rcases List.mem_cons.mp hc with he | hm
    · exact Or.inr he
    · exact Or.inl (mem_natToChars_isDigit _ c hm)
  · exact Or.inl (mem_natToChars_isDigit _ c hc)

theorem not_mem_scoreRow (c : Char) (S : List Software) (d : Dimension)
    (hq : c ≠ '"') (hcm : c ≠ ',') (hdig : c.isDigit = false) (hminus : c ≠ '-')
    (hSc : c ∉ "Score".data) (hname : c ∉ d.name.data) : c ∉ scoreRowChars S d := by
  intro hc
  rcases mem_joinChar c ',' _ hc with he | ⟨f, hf, hcf⟩
  · exact hcm he
  · rcases List.mem_cons.mp hf with he | hf2
    · subst he
      rcases mem_escapeChars c _ hcf with hm | he
      · exact hname hm
      · exact hq he
    · rcases List.mem_cons.mp hf2 with he | hf3
      · subst he
        exact hSc hcf
      · obtain ⟨s, _, he⟩ := List.mem_map.mp hf3
        subst he
        rcases mem_intToChars _ c hcf with hd | he
        · rw [hdig] at hd
          cases hd
        · exact hminus he

theorem not_mem_descRow (c : Char) (S : List Software) (d : Dimension)
    (hq : c ≠ '"') (hcm : c ≠ ',')
    (hDe : c ∉ "Description".data) (hname : c ∉ d.name.data)
    (hdesc : ∀ s ∈ S, c ∉ (exportDesc s d.id).data) : c ∉ descRowChars S d := by
  intro hc
  rcases mem_joinChar c ',' _ hc with he | ⟨f, hf, hcf⟩
  · exact hcm he
  · rcases List.mem_cons.mp hf with he | hf2
    · subst he
      rcases mem_escapeChars c _ hcf with hm | he
      · exact hname hm
      · exact hq he
    · rcases List.mem_cons.mp hf2 with he | hf3
      · subst he
        exact hDe hcf
      · obtain ⟨s, hs, he⟩ := List.mem_map.mp hf3
        subst he
        rcases mem_escapeChars c _ hcf with hm | he
        · exact hdesc s hs hm
        · exact hq he

theorem not_mem_headerRow (c : Char) (S : List Software)
    (hq : c ≠ '"') (hcm : c ≠ ',')
    (hDi : c ∉ "Dimension".data) (hTy : c ∉ "Type".data)
    (hnames : ∀ s ∈ S, c ∉ s.name.data) : c ∉ headerRowChars S := by
  intro hc
  rcases mem_joinChar c ',' _ hc with he | ⟨f, hf, hcf⟩
  · exact hcm he
  · rcases List.mem_cons.mp hf with he | hf2
    · subst he
      exact hDi hcf
    · rcases List.mem_cons.mp hf2 with he | hf3
      · subst he
        exact hTy hcf
      · obtain ⟨s, hs, he⟩ := List.mem_map.mp hf3
        subst he
        rcases mem_escapeChars c _ hcf with hm | he
        · exact hnames s hs hm
        · exact hq he

/-- All rows of an export are free of `\n` and `\r`, provided names and
descriptions are. -/
theorem exportRows_clean (D : List Dimension) (S : List Software)
    (hDnl : ∀ x ∈ D, '\n' ∉ x.name.data ∧ '\r' ∉ x.name.data)
    (hSnl : ∀ x ∈ S, '\n' ∉ x.name.data ∧ '\r' ∉ x.name.data)
    (hdesc : ∀ s ∈ S, ∀ d ∈ D,
      '\n' ∉ (exportDesc s d.id).data ∧ '\r' ∉ (exportDesc s d.id).data) :
    ∀ r ∈ exportRows D S, '\n' ∉ r ∧ '\r' ∉ r := by
  intro r hr
  rw [exportRows] at hr
  rcases List.mem_cons.mp hr with he | hr2
  · subst he
    constructor
    · exact not_mem_headerRow '\n' S (by decide) (by decide) (by decide) (by decide)
        (fun s hs => (hSnl s hs).1)
    · exact not_mem_headerRow '\r' S (by decide) (by decide) (by decide) (by decide)
        (fun s hs => (hSnl s hs).2)
  · obtain ⟨d, hd, hrr⟩ := List.mem_flatMap.mp hr2
    rcases List.mem_cons.mp hrr with he | hrr2
    · subst he
      constructor
      · exact not_mem_scoreRow '\n' S d (by decide) (by decide) (by decide) (by decide)
          (by decide) (hDnl d hd).1
      · exact not_mem_scoreRow '\r' S d (by decide) (by decide) (by decide) (by decide)
          (by decide) (hDnl d hd).2
    · rcases List.mem_cons.mp hrr2 with he | hrr3
      · subst he
        constructor
        · exact not_mem_descRow '\n' S d (by decide) (by decide) (by decide)
            (hDnl d hd).1 (fun s hs => (hdesc s hs d hd).1)
        · exact not_mem_descRow '\r' S d (by decide) (by decide) (by decide)
            (hDnl d hd).2 (fun s hs => (hdesc s hs d hd).2)
      · simp at hrr3

/-- Every export row contains a comma, so line filtering keeps it. -/
theorem exportRows_keep (D : List Dimension) (S : List Software) :
    ∀ r ∈ exportRows D S, ',' ∈ r := by
  intro r hr
  rw [exportRows] at hr
  rcases List.mem_cons.mp hr with he | hr2
  · subst he
    exact comma_mem_joinChar _ _ _
  · obtain ⟨d, _, hrr⟩ := List.mem_flatMap.mp hr2
    rcases List.mem_cons.mp hrr with he | hrr2
    · subst he
      exact comma_mem_joinChar _ _ _
    · rcases List.mem_cons.mp hrr2 with he | hrr3
      · subst he
        exact comma_mem_joinChar _ _ _
      · simp at hrr3

/-- Importing the text produced by `handleExportCSV` succeeds and yields
freshly minted dimensions (names preserved) and identity-stable subjects
with the exported score and description values, under the round-trip
conditions: non-empty grid, trim-invariant and pairwise-distinct names,
no CR/LF in names or descriptions, and an injective id supply. -/
theorem importCSV_exportCSV (genId genColor : Nat → String) (D : List Dimension)
    (S : List Software)
    (hDne : D ≠ []) (hSne : S ≠ [])
    (hDnd : (D.map (fun x => x.name)).Nodup)
    (hSnd : (S.map (fun x => x.name)).Nodup)
    (hDtrim : ∀ x ∈ D, jsTrim x.name.data = x.name.data)
    (hStrim : ∀ x ∈ S, jsTrim x.name.data = x.name.data)
    (hDnl : ∀ x ∈ D, '\n' ∉ x.name.data ∧ '\r' ∉ x.name.data)
    (hSnl : ∀ x ∈ S, '\n' ∉ x.name.data ∧ '\r' ∉ x.name.data)
    (hdesc : ∀ s ∈ S, ∀ d ∈ D,
      '\n' ∉ (exportDesc s d.id).data ∧ '\r' ∉ (exportDesc s d.id).data)
    (hFresh : ∀ i j di dj, D[i]? = some di → D[j]? = some dj →
      mintDimId genId di.name.data i = mintDimId genId dj.name.data j → i = j) :
    importCSV genId genColor D S (exportCSV D S)
      = .success (mintedDims genId D 0) (S.map (importedSw genId D)) := by
  obtain ⟨d0, Drest, hD0⟩ : ∃ d0 Drest, D = d0 :: Drest := by
    cases D with
    | nil => exact absurd rfl hDne
    | cons a b => exact ⟨a, b, rfl⟩
  have htext : (exportCSV D S).data = '﻿' :: joinChar '\n' (exportRows D S) := rfl
  have hclean := exportRows_clean D S hDnl hSnl hdesc
  have hrowsdef : exportRows D S
      = headerRowChars S :: D.flatMap (fun d => [scoreRowChars S d, descRowChars S d]) := rfl
  have hsplit : splitRN (exportCSV D S).data []
      = ('﻿' :: headerRowChars S)
        :: D.flatMap (fun d => [scoreRowChars S d, descRowChars S d]) := by
    rw [htext, splitRN_cons_other _ _ _ (by decide) (by decide), hrowsdef,
      splitRN_joinChar _ _ _ (by rw [← hrowsdef]; exact hclean)]
    simp
  have hfilter : (splitRN (exportCSV D S).data []).filter (fun l => !(jsTrim l).isEmpty)
      = ('﻿' :: headerRowChars S)
        :: D.flatMap (fun d => [scoreRowChars S d, descRowChars S d]) := by
    rw [hsplit]
    apply List.filter_eq_self.mpr
    intro r hr
    have hcomma : ',' ∈ r := by
      rcases List.mem_cons.mp hr with he | hm
      · subst he
        exact List.mem_cons_of_mem _
          (exportRows_keep D S (headerRowChars S) (by rw [hrowsdef]; simp))
      · exact exportRows_keep D S r (by rw [hrowsdef]; exact List.mem_cons_of_mem _ hm)
    have hne := jsTrim_ne_nil_of_mem r ',' hcomma (by decide)
    simp [hne]
  have hinit : S.map (fun s =>
      ({ id := s.id, name := s.name, color := s.color
       , scores := [], descriptions := [] } : Software))
      = S.map (importedSw genId []) := by
    apply List.map_congr_left
    intro s _
    rfl
  have hfold := processRows_roundtrip genId D S hDnd hDtrim hSne hFresh D [] (by simp)
  simp only [mintedDims_nil, List.length_nil] at hfold
  have hrows : scoreRowChars S d0 :: descRowChars S d0
      :: Drest.flatMap (fun d => [scoreRowChars S d, descRowChars S d])
      = D.flatMap (fun d => [scoreRowChars S d, descRowChars S d]) := by
    rw [hD0, List.flatMap_cons]
    rfl
  have hminted := mintSubjects_roundtrip genId genColor S S 0
    (fun s hs => ⟨hStrim s hs, by rw [hStrim s hs]; exact find_name_self S s hs hSnd⟩)
  have hlen1 : (mintedDims genId D 0).length ≠ 0 := by
    rw [length_mintedDims]
    intro h
    exact hDne (List.eq_nil_of_length_eq_zero h)
  have hlen2 : (S.map (importedSw genId D)).length ≠ 0 := by
    rw [List.length_map]
    intro h
    exact hSne (List.eq_nil_of_length_eq_zero h)
  unfold importCSV
  rw [if_neg (by rw [htext]; simp)]
  rw [hfilter, hD0, List.flatMap_cons, List.cons_append, List.cons_append, List.nil_append]
  rw [← hD0]
  dsimp only
  rw [parse_headerRow]
  rw [if_neg (by
    simp only [List.length_cons, List.length_map]
    have := List.length_pos.mpr hSne
    omega)]
  rw [show (('﻿' :: "Dimension".data) :: "Type".data
      :: S.map (fun s => s.name.data)).drop 2 = S.map (fun s => s.name.data) from rfl]
  rw [hminted]
  dsimp only
  rw [hinit, hrows, hfold]
  rw [if_neg (by
    intro hcon
    rcases hcon with h | h
    · exact hlen1 h
    · exact hlen2 h)]

/-! ## Claim C3: the leader computation -/

/-- Claim C3, counterexample: with two subjects of equal total score, the
leader reduce returns the one encountered last in display order (`exSwB`),
not the first (`exSwA`) as the claim states. -/
theorem leader_tie_last_counterexample :
    leader [exSwA, exSwB] = some exSwB
      ∧ exSwB ≠ exSwA
      ∧ totalScore exSwA = totalScore exSwB := by
  refine ⟨rfl, by decide, rfl⟩

/-- Claim C3 (amended): the leader computation returns `none` on an empty
collection, and otherwise returns a subject of maximal total score; ties
resolve to the subject encountered **last** in display order (every
later subject has a strictly smaller total). -/
theorem leader_spec :
    leader [] = none ∧
    ∀ (sws : List Software), sws ≠ [] → ∃ k, ∃ hk : k < sws.length,
      leader sws = some sws[k] ∧
      (∀ i, ∀ hi : i < sws.length, totalScore sws[i] ≤ totalScore sws[k]) ∧
      (∀ i, ∀ hi : i < sws.length, k < i → totalScore sws[i] < totalScore sws[k]) := by
  refine ⟨rfl, ?_⟩
  intro sws hne
  obtain ⟨s, rest, hsr⟩ : ∃ s rest, sws = s :: rest := by
    cases sws with
    | nil => exact absurd rfl hne
    | cons a b => exact ⟨a, b, rfl⟩
  subst hsr
  rw [leader_cons]
  rcases foldl_leaderStep_spec rest s with ⟨heq, hlt⟩ | ⟨k, hk, heq, hle, hall, hafter⟩
  · refine ⟨0, by simp, by rw [heq]; rfl, ?_, ?_⟩
    · intro i hi
      cases i with
      | zero => exact le_refl _
      | succ j =>
        have hj : j < rest.length := by simpa using hi
        exact le_of_lt (hlt rest[j] (List.getElem_mem hj))
    · intro i hi hgt
      cases i with
      | zero => omega
      | succ j =>
        have hj : j < rest.length := by simpa using hi
        exact hlt rest[j] (List.getElem_mem hj)
  · refine ⟨k + 1, by simpa using hk, by rw [heq]; rfl, ?_, ?_⟩
    · intro i hi
      cases i with
      | zero => exact hle
      | succ j =>
        have hj : j < rest.length := by simpa using hi
        exact hall rest[j] (List.getElem_mem hj)
    · intro i hi hgt
      cases i with
      | zero => omega
      | succ j =>
        have hj : j < rest.length := by simpa using hi
        exact hafter j hj (by omega)

/-- Claim C3, witness: the amended leader specification evaluated on a
concrete two-subject collection. -/
theorem leader_spec_witness :
    ([exSwA, exSwC] : List Software) ≠ [] ∧
    (∃ k, ∃ hk : k < ([exSwA, exSwC] : List Software).length,
      leader [exSwA, exSwC] = some ([exSwA, exSwC] : List Software)[k] ∧
      (∀ i, ∀ hi : i < ([exSwA, exSwC] : List Software).length,
        totalScore ([exSwA, exSwC] : List Software)[i]
          ≤ totalScore ([exSwA, exSwC] : List Software)[k]) ∧
      (∀ i, ∀ hi : i < ([exSwA, exSwC] : List Software).length, k < i →
        totalScore ([exSwA, exSwC] : List Software)[i]
          < totalScore ([exSwA, exSwC] : List Software)[k])) :=
  ⟨by decide, leader_spec.2 [exSwA, exSwC] (by decide)⟩

/-! ## Claims C5 and C6: reordering -/

/-- Claim C5, counterexample: with an out-of-bounds `oldIndex`,
`handleReorderSoftwares` does not return the unmodified order: dnd-kit's
`arrayMove` splices an `undefined` entry into the array, both when the two
indices differ and when they are equal. -/
theorem reorder_out_of_bounds_counterexample :
    handleReorderSoftwares [exSwA, exSwB, exSwC] 5 1
        ≠ ([exSwA, exSwB, exSwC] : List Software).map some
      ∧ handleReorderSoftwares [exSwA, exSwB, exSwC] 5 1
        = [some exSwA, none, some exSwB, some exSwC]
      ∧ handleReorderSoftwares [exSwA, exSwB, exSwC] 5 5
        = [some exSwA, some exSwB, some exSwC, none] := by
  refine ⟨by decide, by decide, by decide⟩

/-- Claim C5 (amended): the reorder handlers return the unmodified order
when `oldIndex = newIndex` and the index is within bounds; out-of-bounds
indices are not guarded (see the counterexample). -/
theorem reorder_self_in_bounds :
    (∀ (sws : List Software) (i : Nat), i < sws.length →
      handleReorderSoftwares sws i i = sws.map some) ∧
    (∀ (dims : List Dimension) (i : Nat), i < dims.length →
      handleReorderDimensions dims i i = dims.map some) := by
  constructor
  · intro sws i hi
    exact arrayMove_self (sws.map some) i (by simpa using hi)
  · intro dims i hi
    exact arrayMove_self (dims.map some) i (by simpa using hi)

/-- Claim C5, witness: the in-bounds equal-index no-op evaluated on a
concrete three-element list. -/
theorem reorder_self_in_bounds_witness :
    (1 : Nat) < ([exSwA, exSwB, exSwC] : List Software).length ∧
    handleReorderSoftwares [exSwA, exSwB, exSwC] 1 1
      = ([exSwA, exSwB, exSwC] : List Software).map some :=
  ⟨by decide, reorder_self_in_bounds.1 [exSwA, exSwB, exSwC] 1 (by decide)⟩

/-- Claim C6: on in-bounds indices, `arrayMove` (the reorder operation) is
a permutation, preserves the relative order of the unmoved elements
(erasing the moved element from its new position gives the original list
with the element erased), and the inverse move restores the original
list. -/
theorem reorder_permutation {β : Type} (l : List (Option β)) (i j : Nat)
    (hi : i < l.length) (hj : j < l.length) :
    (arrayMove l (i : Int) (j : Int)).Perm l
      ∧ (arrayMove l (i : Int) (j : Int)).eraseIdx j = l.eraseIdx i
      ∧ arrayMove (arrayMove l (i : Int) (j : Int)) (j : Int) (i : Int) = l := by
  have hlen : (l.eraseIdx i).length = l.length - 1 := List.length_eraseIdx_of_lt hi
  have hj1 : j ≤ (l.eraseIdx i).length := by omega
  rw [arrayMove_eq_insertIdx l i j hi hj]
  refine ⟨?_, ?_, ?_⟩
  · exact (List.perm_insertIdx l[i] (l.eraseIdx i) hj1).trans
      (getElem_cons_eraseIdx_perm l i hi)
  · exact List.eraseIdx_insertIdx j (l.eraseIdx i)
  · have hlen2 : ((l.eraseIdx i).insertIdx j l[i]).length = l.length := by
      rw [List.length_insertIdx _ _ hj1]
      omega
    rw [arrayMove_eq_insertIdx _ j i (by omega) (by omega)]
    rw [List.getElem_insertIdx_self (l.eraseIdx i) l[i] j hj1]
    rw [List.eraseIdx_insertIdx j (l.eraseIdx i)]
    exact insertIdx_getElem_eraseIdx l i hi

/-- Claim C6, witness: the permutation, frame and inverse properties of a
concrete in-bounds move. -/
theorem reorder_permutation_witness :
    ((0 : Nat) < ([some 1, some 2, some 3] : List (Option Int)).length
      ∧ (2 : Nat) < ([some 1, some 2, some 3] : List (Option Int)).length)
    ∧ ((arrayMove ([some 1, some 2, some 3] : List (Option Int)) 0 2).Perm
          [some 1, some 2, some 3]
      ∧ (arrayMove ([some 1, some 2, some 3] : List (Option Int)) 0 2).eraseIdx 2
          = ([some 1, some 2, some 3] : List (Option Int)).eraseIdx 0
      ∧ arrayMove (arrayMove ([some 1, some 2, some 3] : List (Option Int)) 0 2) 2 0
          = [some 1, some 2, some 3]) :=
  ⟨⟨by decide, by decide⟩,
    reorder_permutation [some 1, some 2, some 3] 0 2 (by decide) (by decide)⟩

/-! ## Claim C7: adding a dimension -/

/-- Claim C7: for a name that is non-empty after trimming,
`handleAddDimension` appends the new dimension at the end of the order and
sets every existing subject's score for the new id to exactly `5`, leaving
ids, names, colors, descriptions and every other score entry unchanged. -/
theorem addDimension_spec (dims : List Dimension) (sws : List Software)
    (name gen : String) (h : jsTrim name.data ≠ []) :
    (handleAddDimension dims sws name gen).1
      = dims ++ [{ id := ⟨slugChars name.data ++ '_' :: gen.data⟩, name := name }] ∧
    List.Forall₂ (fun sw sw' =>
      sw'.id = sw.id ∧ sw'.name = sw.name ∧ sw'.color = sw.color ∧
      sw'.descriptions = sw.descriptions ∧
      objGet sw'.scores ⟨slugChars name.data ++ '_' :: gen.data⟩ = some 5 ∧
      ∀ k, k ≠ (⟨slugChars name.data ++ '_' :: gen.data⟩ : String) →
        objGet sw'.scores k = objGet sw.scores k)
      sws (handleAddDimension dims sws name gen).2 := by
  unfold handleAddDimension
  rw [if_neg h]
  refine ⟨rfl, ?_⟩
  rw [List.forall₂_map_right_iff, List.forall₂_same]
  intro sw hsw
  exact ⟨rfl, rfl, rfl, rfl, objGet_objSet_self _ _ _,
    fun k hk => objGet_objSet_ne _ _ _ _ hk⟩

/-- Claim C7, witness: the specification evaluated on a concrete grid with
one dimension and one subject. -/
theorem addDimension_spec_witness :
    jsTrim "New".data ≠ [] ∧
    ((handleAddDimension [exDimD] [exSwA] "New" "g").1
      = [exDimD] ++ [{ id := ⟨slugChars "New".data ++ '_' :: "g".data⟩, name := "New" }] ∧
    List.Forall₂ (fun sw sw' =>
      sw'.id = sw.id ∧ sw'.name = sw.name ∧ sw'.color = sw.color ∧
      sw'.descriptions = sw.descriptions ∧
      objGet sw'.scores ⟨slugChars "New".data ++ '_' :: "g".data⟩ = some 5 ∧
      ∀ k, k ≠ (⟨slugChars "New".data ++ '_' :: "g".data⟩ : String) →
        objGet sw'.scores k = objGet sw.scores k)
      [exSwA] (handleAddDimension [exDimD] [exSwA] "New" "g").2) :=
  ⟨by decide, addDimension_spec [exDimD] [exSwA] "New" "g" (by decide)⟩

/-! ## Claim C8: manual score entry -/

/-- Claim C8, counterexample: a non-numeric input such as `"abc"` is not
treated as `0` before clamping; `Number("abc")` is `NaN` and both
`Math.min` and `Math.max` propagate it, so the stored value is `NaN`
(`none`), not `0`. -/
theorem score_clamp_nan_counterexample :
    clampScoreInput "abc" = none ∧ (none : Option Int) ≠ some (0 : Int) := by
  exact ⟨rfl, by decide⟩

/-- Claim C8 (amended): for numeric input the score input's onChange stores
the value clamped to `[0, 10]` (the empty string counts as `0`), and
`handleScoreUpdate` with an unknown subject id leaves the collection
unchanged; non-numeric input yields `NaN` instead of `0` (see the
counterexample). -/
theorem setScore_clamped_spec :
    (∀ (s : String) (v : Int), jsNumber? s.data = some v →
      clampScoreInput s = some (max 0 (min 10 v)) ∧
      0 ≤ max 0 (min 10 v) ∧ max 0 (min 10 v) ≤ 10) ∧
    clampScoreInput "" = some 0 ∧
    (∀ (sws : List Software) (sid did : String) (v : Int),
      (∀ sw ∈ sws, sw.id ≠ sid) → handleScoreUpdate sws sid did v = sws) := by
  refine ⟨?_, rfl, ?_⟩
  · intro s v h
    unfold clampScoreInput
    rw [h]
    refine ⟨rfl, ?_, ?_⟩
    · exact le_max_left 0 _
    · have : min 10 v ≤ 10 := min_le_left 10 v
      omega
  · intro sws sid did v h
    unfold handleScoreUpdate
    have h2 : ∀ sw ∈ sws,
        (if sw.id = sid then { sw with scores := objSet sw.scores did v } else sw) = sw :=
      fun sw hsw => if_neg (h sw hsw)
    rw [List.map_congr_left h2]
    exact List.map_id sws

/-- Claim C8, witness: the amended specification evaluated on the numeric
input `"15"` (clamped to `10`) and on an unknown subject id. -/
theorem setScore_clamped_spec_witness :
    (jsNumber? "15".data = some 15 ∧
      clampScoreInput "15" = some (max 0 (min 10 15)) ∧
      0 ≤ max 0 (min 10 (15 : Int)) ∧ max 0 (min 10 (15 : Int)) ≤ 10) ∧
    ((∀ sw ∈ ([exSwA] : List Software), sw.id ≠ "zzz") ∧
      handleScoreUpdate [exSwA] "zzz" "d" 3 = [exSwA]) :=
  ⟨⟨by decide, setScore_clamped_spec.1 "15" 15 (by decide)⟩,
   ⟨by decide, setScore_clamped_spec.2.2 [exSwA] "zzz" "d" 3 (by decide)⟩⟩

/-! ## Claim C9: CSV field escaping round-trip -/

/-- Claim C9: for a value containing a comma, a double quote and a newline,
escaping and then parsing with the quote-aware splitter recovers the
original value exactly. -/
theorem csv_field_roundtrip (v : String)
    (hc : ',' ∈ v.data) (hq : '"' ∈ v.data) (hn : '\n' ∈ v.data) :
    parseCSVLine (escapeCSV v) = [v] := by
  unfold parseCSVLine escapeCSV
  have h := parse_escaped v.data [] [] [] (by simp)
  rw [List.append_nil] at h
  rw [h, show parseCSVChars [] false ([] ++ v.data) [] = [v.data] by simp [parseCSVChars]]
  rfl

/-- Claim C9, witness: the round-trip on a concrete value containing a
comma, a double quote and a newline. -/
theorem csv_field_roundtrip_witness :
    (',' ∈ "a,\"b\"\nc".data ∧ '"' ∈ "a,\"b\"\nc".data ∧ '\n' ∈ "a,\"b\"\nc".data) ∧
    parseCSVLine (escapeCSV "a,\"b\"\nc") = ["a,\"b\"\nc"] :=
  ⟨⟨by decide, by decide, by decide⟩,
   csv_field_roundtrip "a,\"b\"\nc" (by decide) (by decide) (by decide)⟩

/-! ## Claim C2: scores read from a CSV file -/

/-- Claim C2, counterexample: importing a score cell holding `15` stores
`15`, although `15` lies outside `[0, 10]` and the claim requires such a
value to be coerced to `0`. -/
theorem import_unclamped_counterexample :
    importCSV (fun _ => "g") (fun _ => "c") [] [] "Dimension,Type,S\nD,Score,15"
      = .success [{ id := "d_g", name := "D" }]
          [{ id := "g", name := "S", color := "c",
             scores := [("d_g", 15)], descriptions := [] }]
      ∧ ¬((15 : Int) ≤ 10) ∧ (15 : Int) ≠ 0 := by
  refine ⟨?_, by decide, by decide⟩
  simp +decide [importCSV, splitRN, parseCSVChars, mintSubjects, processRow, processFields,
    applyValues, applyCell, mintDimId, slugChars, jsTrim, lowerChars, objSet, jsNumber?,
    jsNumberCore, digitsToNat?, digitsToNatAux]

/-- Claim C2 (amended): a score cell read during import stores
`Number(val) || 0`: `0` when the value is non-numeric, and otherwise the
parsed number itself, without any clamping to `[0, 10]` (see the
counterexample). -/
theorem import_score_cell_spec (dimId : String) (val : List Char) (sw : Software) :
    (jsNumber? val = none →
      objGet (applyCell "score".data dimId val sw).scores dimId = some 0) ∧
    (∀ v, jsNumber? val = some v →
      objGet (applyCell "score".data dimId val sw).scores dimId = some v) := by
  constructor
  · intro h
    unfold applyCell
    rw [if_pos rfl, h]
    exact objGet_objSet_self _ _ _
  · intro v h
    unfold applyCell
    rw [if_pos rfl, h]
    exact objGet_objSet_self _ _ _

/-- Claim C2, witness: the amended cell rule evaluated on a non-numeric
cell and on the out-of-range numeric cell `15`. -/
theorem import_score_cell_spec_witness :
    (jsNumber? "x".data = none ∧
      objGet (applyCell "score".data "d" "x".data exSwA).scores "d" = some 0) ∧
    (jsNumber? "15".data = some 15 ∧
      objGet (applyCell "score".data "d" "15".data exSwA).scores "d" = some 15) :=
  ⟨⟨by decide, (import_score_cell_spec "d" "x".data exSwA).1 (by decide)⟩,
   ⟨by decide, (import_score_cell_spec "d" "15".data exSwA).2 15 (by decide)⟩⟩

/-! ## Claim C4: malformed import -/

/-- Claim C4, counterexample: the empty text has fewer than 2 non-empty
lines, yet the importer takes the silent `if (!text) return` path: no
failure is signalled to the caller (the state is still unchanged). -/
theorem import_empty_silent_counterexample :
    countNonEmptyLines "" < 2
      ∧ importCSV (fun _ => "g") (fun _ => "c") [exDimD] [exSwA] "" = .noText
      ∧ ImportResult.noText ≠ ImportResult.failure
      ∧ commitImport [exDimD] [exSwA] ImportResult.noText = ([exDimD], [exSwA]) := by
  refine ⟨by simp +decide [countNonEmptyLines, splitRN], rfl, by decide, rfl⟩

/-- Claim C4 (amended): for non-empty text with fewer than 2 non-empty
lines, the importer reports a failure and the pre-import dimension and
subject collections are left exactly as they were; the empty text instead
returns silently (see the counterexample). -/
theorem import_short_text_failure (genId genColor : Nat → String)
    (dims : List Dimension) (sws : List Software) (text : String)
    (hne : text.data ≠ []) (hlt : countNonEmptyLines text < 2) :
    importCSV genId genColor dims sws text = .failure ∧
    commitImport dims sws (importCSV genId genColor dims sws text) = (dims, sws) := by
  have hfail : importCSV genId genColor dims sws text = .failure := by
    unfold importCSV
    rw [if_neg hne]
    unfold countNonEmptyLines at hlt
    cases h : (splitRN text.data []).filter (fun l => !(jsTrim l).isEmpty) with
    | nil => rfl
    | cons l0 rest =>
      cases rest with
      | nil => rfl
      | cons l1 rest2 =>
        rw [h] at hlt
        simp at hlt
        omega
  exact ⟨hfail, by rw [hfail]; rfl⟩

/-- Claim C4, witness: the amended failure rule evaluated on a single-line
file. -/
theorem import_short_text_failure_witness :
    (("Dimension,Type,S" : String).data ≠ [] ∧
      countNonEmptyLines "Dimension,Type,S" < 2) ∧
    (importCSV (fun _ => "i") (fun _ => "k") [exDimD] [exSwB] "Dimension,Type,S"
        = .failure ∧
      commitImport [exDimD] [exSwB]
        (importCSV (fun _ => "i") (fun _ => "k") [exDimD] [exSwB] "Dimension,Type,S")
        = ([exDimD], [exSwB])) :=
  ⟨⟨by decide, by simp +decide [countNonEmptyLines, splitRN, jsTrim]⟩,
   import_short_text_failure (fun _ => "i") (fun _ => "k") [exDimD] [exSwB]
     "Dimension,Type,S" (by decide)
     (by simp +decide [countNonEmptyLines, splitRN, jsTrim])⟩

/-! ## Claim C1: export / import round-trip -/

/-- Claim C1, counterexample: a subject whose stored name carries a leading
space (`" A"`) comes back from an export / import cycle with the trimmed
name `"A"`: subject names are not preserved exactly. -/
theorem roundtrip_trim_counterexample :
    successSubjectNames
        (importCSV (fun _ => "g") (fun _ => "c") [exDimD] [exSwLead]
          (exportCSV [exDimD] [exSwLead]))
      = ["A"]
      ∧ ([exSwLead] : List Software).map (fun s => s.name) = [" A"]
      ∧ ("A" : String) ≠ " A" := by
  refine ⟨?_, by decide, by decide⟩
  simp +decide [importCSV, exportCSV, exportRows, headerRowChars, scoreRowChars, descRowChars,
    joinChar, escapeChars, needsQuote, doubleQuotes, splitRN, parseCSVChars, mintSubjects,
    processRow, processFields, applyValues, applyCell, mintDimId, slugChars, slugAux, jsTrim,
    lowerChars, objSet, jsNumber?, jsNumberCore, digitsToNat?, digitsToNatAux, exportScore,
    exportDesc, intToChars, natToChars, exSwLead, exDimD, successSubjectNames, objGet]

/-- Claim C1 (amended): for a grid whose dimension and subject names are
distinct, already trimmed and free of line breaks (and whose descriptions
are free of line breaks), with an id supply that mints distinct dimension
ids, exporting and importing succeeds and preserves all dimension names,
all subject names, ids and colors, and every score and description value;
dimension ids are regenerated unconditionally, and names that are not
already trimmed come back altered (see the counterexample). -/
theorem export_import_roundtrip (genId genColor : Nat → String) (D : List Dimension)
    (S : List Software)
    (hDne : D ≠ []) (hSne : S ≠ [])
    (hDnd : (D.map (fun x => x.name)).Nodup)
    (hSnd : (S.map (fun x => x.name)).Nodup)
    (hDtrim : ∀ x ∈ D, jsTrim x.name.data = x.name.data)
    (hStrim : ∀ x ∈ S, jsTrim x.name.data = x.name.data)
    (hDnl : ∀ x ∈ D, '\n' ∉ x.name.data ∧ '\r' ∉ x.name.data)
    (hSnl : ∀ x ∈ S, '\n' ∉ x.name.data ∧ '\r' ∉ x.name.data)
    (hdesc : ∀ s ∈ S, ∀ d ∈ D,
      '\n' ∉ (exportDesc s d.id).data ∧ '\r' ∉ (exportDesc s d.id).data)
    (hFresh : ∀ i j di dj, D[i]? = some di → D[j]? = some dj →
      mintDimId genId di.name.data i = mintDimId genId dj.name.data j → i = j) :
    ∃ D' S', importCSV genId genColor D S (exportCSV D S) = .success D' S' ∧
      D'.map (fun d => d.name) = D.map (fun d => d.name) ∧
      S'.map (fun s => s.name) = S.map (fun s => s.name) ∧
      S'.map (fun s => s.id) = S.map (fun s => s.id) ∧
      S'.map (fun s => s.color) = S.map (fun s => s.color) ∧
      (∀ (k : Nat) (d : Dimension), D[k]? = some d →
        ∀ (i : Nat) (s : Software), S[i]? = some s → ∃ d' : Dimension,
        D'[k]? = some d' ∧ ∃ s' : Software, S'[i]? = some s' ∧
        (objGet s'.scores d'.id).getD 0 = (objGet s.scores d.id).getD 0 ∧
        (objGet s'.descriptions d'.id).getD "" = (objGet s.descriptions d.id).getD "") := by
  refine ⟨mintedDims genId D 0, S.map (importedSw genId D),
    importCSV_exportCSV genId genColor D S hDne hSne hDnd hSnd hDtrim hStrim hDnl hSnl
      hdesc hFresh,
    map_name_mintedDims genId D 0, ?_, ?_, ?_, ?_⟩
  · rw [List.map_map]
    exact List.map_congr_left (fun s _ => rfl)
  · rw [List.map_map]
    exact List.map_congr_left (fun s _ => rfl)
  · rw [List.map_map]
    exact List.map_congr_left (fun s _ => rfl)
  · intro k d hk i s hi
    have hne : ∀ j dj, j < k → D[j]? = some dj →
        mintDimId genId dj.name.data (0 + j) ≠ mintDimId genId d.name.data (0 + k) := by
      intro j dj hjk hj heq
      have := hFresh j k dj d hj hk (by simpa using heq)
      omega
    refine ⟨_, getElem?_mintedDims genId D 0 k d hk, importedSw genId D s, ?_, ?_, ?_⟩
    · rw [List.getElem?_map, hi]
      rfl
    · rw [show (importedSw genId D s).scores
            = mintedVals genId (fun x => exportScore s x.id) D 0 from rfl]
      rw [objGet_mintedVals genId (fun x => exportScore s x.id) D 0 k d hk hne]
      rfl
    · rw [show (importedSw genId D s).descriptions
            = mintedVals genId (fun x => exportDesc s x.id) D 0 from rfl]
      rw [objGet_mintedVals genId (fun x => exportDesc s x.id) D 0 k d hk hne]
      rfl

/-- Claim C1, witness: the amended round-trip on a concrete one-dimension,
one-subject grid with clean names. -/
theorem export_import_roundtrip_witness :
    ([exDimD] : List Dimension) ≠ [] ∧
    (∃ D' S', importCSV (fun _ => "g") (fun _ => "c") [exDimD] [exSwA]
        (exportCSV [exDimD] [exSwA]) = .success D' S' ∧
      D'.map (fun d => d.name) = ([exDimD] : List Dimension).map (fun d => d.name) ∧
      S'.map (fun s => s.name) = ([exSwA] : List Software).map (fun s => s.name) ∧
      S'.map (fun s => s.id) = ([exSwA] : List Software).map (fun s => s.id) ∧
      S'.map (fun s => s.color) = ([exSwA] : List Software).map (fun s => s.color) ∧
      (∀ (k : Nat) (d : Dimension), ([exDimD] : List Dimension)[k]? = some d →
        ∀ (i : Nat) (s : Software), ([exSwA] : List Software)[i]? = some s →
        ∃ d' : Dimension,
        D'[k]? = some d' ∧ ∃ s' : Software, S'[i]? = some s' ∧
        (objGet s'.scores d'.id).getD 0 = (objGet s.scores d.id).getD 0 ∧
        (objGet s'.descriptions d'.id).getD "" = (objGet s.descriptions d.id).getD "")) :=
  ⟨by decide,
   export_import_roundtrip (fun _ => "g") (fun _ => "c") [exDimD] [exSwA]
     (by decide) (by decide) (by decide) (by decide) (by decide) (by decide)
     (by decide) (by decide) (by decide)
     (fun i j di dj hi hj _ => by
       have h1 : i = 0 := by
         cases i with
         | zero => rfl
         | succ m => simp at hi
       have h2 : j = 0 := by
         cases j with
         | zero => rfl
         | succ m => simp at hj
       omega)⟩

/-! ## Claim C10: invariants of the importer's data-row loop -/

theorem applyCell_triple (t : List Char) (k : String) (v : List Char) (sw : Software) :
    swTriple (applyCell t k v sw) = swTriple sw := by
  unfold applyCell
  split
  · rfl
  · split
    · rfl
    · rfl

theorem mem_key_objSet {V : Type} (m : List (String × V)) (k : String) (v : V)
    (p : String × V) (hp : p ∈ objSet m k v) : p.1 = k ∨ p ∈ m := by
  unfold objSet at hp
  split at hp
  · obtain ⟨q, hq, hpq⟩ := List.mem_map.mp hp
    by_cases h : q.1 = k
    · left
      rw [← hpq, if_pos (by simpa using h)]
    · right
      rw [← hpq, if_neg (by simpa using h)]
      exact hq
  · rcases List.mem_append.mp hp with h | h
    · exact Or.inr h
    · left
      simp only [List.mem_singleton] at h
      rw [h]

theorem applyCell_keys (t : List Char) (k : String) (v : List Char) (sw : Software) :
    (∀ p ∈ (applyCell t k v sw).scores, p.1 = k ∨ p ∈ sw.scores) ∧
    (∀ p ∈ (applyCell t k v sw).descriptions, p.1 = k ∨ p ∈ sw.descriptions) := by
  unfold applyCell
  split
  · exact ⟨fun p hp => mem_key_objSet _ _ _ p hp, fun p hp => Or.inr hp⟩
  · split
    · exact ⟨fun p hp => Or.inr hp, fun p hp => mem_key_objSet _ _ _ p hp⟩
    · exact ⟨fun p hp => Or.inr hp, fun p hp => Or.inr hp⟩

theorem applyValues_triples (t : List Char) (k : String) :
    ∀ (vs : List (List Char)) (sws : List Software),
      (applyValues t k vs sws).map swTriple = sws.map swTriple := by
  intro vs
  induction vs with
  | nil =>
    intro sws
    cases sws <;> rfl
  | cons v vs ih =>
    intro sws
    cases sws with
    | nil => rfl
    | cons sw rest =>
      show swTriple (applyCell t k v sw) :: (applyValues t k vs rest).map swTriple
        = swTriple sw :: rest.map swTriple
      rw [applyCell_triple, ih]

theorem mem_applyValues (t : List Char) (k : String) :
    ∀ (vs : List (List Char)) (sws : List Software) (sw' : Software),
      sw' ∈ applyValues t k vs sws →
      sw' ∈ sws ∨ ∃ v sw, sw ∈ sws ∧ sw' = applyCell t k v sw := by
  intro vs
  induction vs with
  | nil =>
    intro sws sw' h
    cases sws with
    | nil => exact absurd h (by simp [applyValues])
    | cons a b => exact Or.inl h
  | cons v vs ih =>
    intro sws sw' h
    cases sws with
    | nil => exact absurd h (by simp [applyValues])
    | cons sw rest =>
      rw [show applyValues t k (v :: vs) (sw :: rest)
          = applyCell t k v sw :: applyValues t k vs rest from rfl] at h
      rcases List.mem_cons.mp h with he | hm
      · exact Or.inr ⟨v, sw, List.mem_cons_self sw rest, he⟩
      · rcases ih rest sw' hm with h1 | ⟨v', sw0, hsw0, he⟩
        · exact Or.inl (List.mem_cons_of_mem _ h1)
        · exact Or.inr ⟨v', sw0, List.mem_cons_of_mem _ hsw0, he⟩

theorem processFields_cons (genId : Nat → String) (st : ImpSt) (f0 f1 : List Char)
    (values : List (List Char)) :
    processFields genId st (f0 :: f1 :: values)
      = if values = [] then st
        else match st.dims.find? (fun d => d.name.data == jsTrim f0) with
          | some dim =>
            { st with sws := applyValues (lowerChars (jsTrim f1)) dim.id values st.sws }
          | none =>
            { dims := st.dims ++ [⟨mintDimId genId (jsTrim f0) st.ctr, ⟨jsTrim f0⟩⟩]
            , ctr := st.ctr + 1
            , sws := applyValues (lowerChars (jsTrim f1))
                (mintDimId genId (jsTrim f0) st.ctr) values st.sws } := rfl

theorem processFields_inv (genId : Nat → String) (st : ImpSt) (fields : List (List Char))
    (h : ∀ sw ∈ st.sws,
      (∀ p ∈ sw.scores, ∃ dm ∈ st.dims, p.1 = dm.id) ∧
      (∀ p ∈ sw.descriptions, ∃ dm ∈ st.dims, p.1 = dm.id)) :
    ((processFields genId st fields).sws.map swTriple = st.sws.map swTriple) ∧
    (∀ sw ∈ (processFields genId st fields).sws,
      (∀ p ∈ sw.scores, ∃ dm ∈ (processFields genId st fields).dims, p.1 = dm.id) ∧
      (∀ p ∈ sw.descriptions, ∃ dm ∈ (processFields genId st fields).dims, p.1 = dm.id)) := by
  cases fields with
  | nil => exact ⟨rfl, h⟩
  | cons f0 rest0 =>
  cases rest0 with
  | nil => exact ⟨rfl, h⟩
  | cons f1 values =>
  rw [processFields_cons]
  by_cases hv : values = []
  · rw [if_pos hv]
    exact ⟨rfl, h⟩
  · rw [if_neg hv]
    cases hfind : st.dims.find? (fun d => d.name.data == jsTrim f0) with
    | some dim =>
      simp only [hfind]
      refine ⟨applyValues_triples _ _ values st.sws, ?_⟩
      intro sw' hsw'
      have hdim : dim ∈ st.dims := List.mem_of_find?_eq_some hfind
      rcases mem_applyValues _ _ values st.sws sw' hsw' with h1 | ⟨v, sw0, hsw0, he⟩
      · exact h sw' h1
      · subst he
        constructor
        · intro p hp
          rcases (applyCell_keys _ _ v sw0).1 p hp with hk | hmem
          · exact ⟨dim, hdim, hk⟩
          · exact (h sw0 hsw0).1 p hmem
        · intro p hp
          rcases (applyCell_keys _ _ v sw0).2 p hp with hk | hmem
          · exact ⟨dim, hdim, hk⟩
          · exact (h sw0 hsw0).2 p hmem
    | none =>
      simp only [hfind]
      refine ⟨applyValues_triples _ _ values st.sws, ?_⟩
      intro sw' hsw'
      have hdim : (⟨mintDimId genId (jsTrim f0) st.ctr, ⟨jsTrim f0⟩⟩ : Dimension)
          ∈ st.dims ++ [(⟨mintDimId genId (jsTrim f0) st.ctr, ⟨jsTrim f0⟩⟩ : Dimension)] :=
        List.mem_append_right _ (List.mem_singleton.mpr rfl)
      rcases mem_applyValues _ _ values st.sws sw' hsw' with h1 | ⟨v, sw0, hsw0, he⟩
      · constructor
        · intro p hp
          obtain ⟨dm, hdm, hid⟩ := (h sw' h1).1 p hp
          exact ⟨dm, List.mem_append_left _ hdm, hid⟩
        · intro p hp
          obtain ⟨dm, hdm, hid⟩ := (h sw' h1).2 p hp
          exact ⟨dm, List.mem_append_left _ hdm, hid⟩
      · subst he
        constructor
        · intro p hp
          rcases (applyCell_keys _ _ v sw0).1 p hp with hk | hmem
          · exact ⟨_, hdim, hk⟩
          · obtain ⟨dm, hdm, hid⟩ := (h sw0 hsw0).1 p hmem
            exact ⟨dm, List.mem_append_left _ hdm, hid⟩
        · intro p hp
          rcases (applyCell_keys _ _ v sw0).2 p hp with hk | hmem
          · exact ⟨_, hdim, hk⟩
          · obtain ⟨dm, hdm, hid⟩ := (h sw0 hsw0).2 p hmem
            exact ⟨dm, List.mem_append_left _ hdm, hid⟩

theorem processRows_inv (genId : Nat → String) (lines : List (List Char)) :
    ∀ (st : ImpSt),
      (∀ sw ∈ st.sws,
        (∀ p ∈ sw.scores, ∃ dm ∈ st.dims, p.1 = dm.id) ∧
        (∀ p ∈ sw.descriptions, ∃ dm ∈ st.dims, p.1 = dm.id)) →
      ((lines.foldl (processRow genId) st).sws.map swTriple = st.sws.map swTriple) ∧
      (∀ sw ∈ (lines.foldl (processRow genId) st).sws,
        (∀ p ∈ sw.scores, ∃ dm ∈ (lines.foldl (processRow genId) st).dims, p.1 = dm.id) ∧
        (∀ p ∈ sw.descriptions, ∃ dm ∈ (lines.foldl (processRow genId) st).dims, p.1 = dm.id)) := by
  induction lines with
  | nil =>
    intro st h
    exact ⟨rfl, h⟩
  | cons line rest ih =>
    intro st h
    have hstep := processFields_inv genId st (parseCSVChars line false [] []) h
    rw [List.foldl_cons]
    have hrec := ih (processRow genId st line) hstep.2
    exact ⟨hrec.1.trans hstep.1, hrec.2⟩

theorem mintSubjects_shape (genId genColor : Nat → String) (existing : List Software) :
    ∀ (names : List (List Char)) (ctr : Nat),
      ∀ sw ∈ (mintSubjects genId genColor existing names ctr).1,
        sw.scores = [] ∧ sw.descriptions = [] ∧
        ∀ e : Software, existing.find? (fun s => s.name.data == sw.name.data) = some e →
          sw.id = e.id ∧ sw.color = e.color := by
  intro names
  induction names with
  | nil =>
    intro ctr sw hsw
    exact absurd hsw (by simp [mintSubjects])
  | cons name rest ih =>
    intro ctr sw hsw
    cases hf : existing.find? (fun s => s.name.data == jsTrim name) with
    | some e0 =>
      have hs : (mintSubjects genId genColor existing (name :: rest) ctr).1
          = ({ id := e0.id, name := ⟨jsTrim name⟩, color := e0.color,
               scores := [], descriptions := [] } : Software)
            :: (mintSubjects genId genColor existing rest ctr).1 := by
        simp [mintSubjects, hf]
      rw [hs] at hsw
      rcases List.mem_cons.mp hsw with he | hm
      · subst he
        refine ⟨rfl, rfl, ?_⟩
        intro e hfind
        have hfind2 : List.find? (fun s => s.name.data == jsTrim name) existing
            = some e := hfind
        rw [hf] at hfind2
        cases hfind2
        exact ⟨rfl, rfl⟩
      · exact ih ctr sw hm
    | none =>
      have hs : (mintSubjects genId genColor existing (name :: rest) ctr).1
          = ({ id := genId ctr, name := ⟨jsTrim name⟩, color := genColor ctr,
               scores := [], descriptions := [] } : Software)
            :: (mintSubjects genId genColor existing rest (ctr + 1)).1 := by
        simp [mintSubjects, hf]
      rw [hs] at hsw
      rcases List.mem_cons.mp hsw with he | hm
      · subst he
        refine ⟨rfl, rfl, ?_⟩
        intro e hfind
        have hfind2 : List.find? (fun s => s.name.data == jsTrim name) existing
            = some e := hfind
        rw [hf] at hfind2
        cases hfind2
      · exact ih (ctr + 1) sw hm

theorem importCSV_success_inv (genId genColor : Nat → String) (dims : List Dimension)
    (sws : List Software) (text : String) (D' : List Dimension) (S' : List Software)
    (h : importCSV genId genColor dims sws text = .success D' S') :
    ∃ l0 l1 rest,
      (splitRN text.data []).filter (fun l => !(jsTrim l).isEmpty) = l0 :: l1 :: rest ∧
      D' = ((l1 :: rest).foldl (processRow genId)
        { dims := []
        , sws := (mintSubjects genId genColor sws
            ((parseCSVChars l0 false [] []).drop 2) 0).1
        , ctr := (mintSubjects genId genColor sws
            ((parseCSVChars l0 false [] []).drop 2) 0).2 }).dims ∧
      S' = ((l1 :: rest).foldl (processRow genId)
        { dims := []
        , sws := (mintSubjects genId genColor sws
            ((parseCSVChars l0 false [] []).drop 2) 0).1
        , ctr := (mintSubjects genId genColor sws
            ((parseCSVChars l0 false [] []).drop 2) 0).2 }).sws := by
  unfold importCSV at h
  by_cases ht : text.data = []
  · rw [if_pos ht] at h
    exact absurd h (by simp)
  · rw [if_neg ht] at h
    cases hl : (splitRN text.data []).filter (fun l => !(jsTrim l).isEmpty) with
    | nil =>
      rw [hl] at h
      exact absurd h (by simp)
    | cons l0 rest0 =>
      cases rest0 with
      | nil =>
        rw [hl] at h
        exact absurd h (by simp)
      | cons l1 rest =>
        rw [hl] at h
        dsimp only at h
        refine ⟨l0, l1, rest, rfl, ?_⟩
        split at h
        · exact absurd h (by simp)
        · split at h
          · exact absurd h (by simp)
          · cases h
            exact ⟨rfl, rfl⟩

/-- Claim C10: on a successful import, every resulting subject whose
(trimmed) name matches an existing subject's name — via the same first-match
lookup the source uses — carries that subject's id and color, and its score
and description maps contain only entries keyed by dimensions resolved
during this import pass: everything previously stored and absent from the
file is gone. -/
theorem import_rebuilds_matched_subjects (genId genColor : Nat → String)
    (dims : List Dimension) (sws : List Software) (text : String)
    (D' : List Dimension) (S' : List Software)
    (hsucc : importCSV genId genColor dims sws text = .success D' S') :
    ∀ sw' ∈ S',
      (∀ e : Software, sws.find? (fun s => s.name.data == sw'.name.data) = some e →
        sw'.id = e.id ∧ sw'.color = e.color) ∧
      (∀ p ∈ sw'.scores, ∃ dm ∈ D', p.1 = dm.id) ∧
      (∀ p ∈ sw'.descriptions, ∃ dm ∈ D', p.1 = dm.id) := by
  obtain ⟨l0, l1, rest, hl, hD, hS⟩ :=
    importCSV_success_inv genId genColor dims sws text D' S' hsucc
  subst hD
  subst hS
  intro sw' hsw'
  have hmint := mintSubjects_shape genId genColor sws
    ((parseCSVChars l0 false [] []).drop 2) 0
  have hstart : ∀ sw ∈ (mintSubjects genId genColor sws
      ((parseCSVChars l0 false [] []).drop 2) 0).1,
      (∀ p ∈ sw.scores, ∃ dm ∈ ([] : List Dimension), p.1 = dm.id) ∧
      (∀ p ∈ sw.descriptions, ∃ dm ∈ ([] : List Dimension), p.1 = dm.id) := by
    intro sw hsw
    obtain ⟨hsc, hde, _⟩ := hmint sw hsw
    constructor
    · intro p hp
      rw [hsc] at hp
      exact absurd hp (List.not_mem_nil p)
    · intro p hp
      rw [hde] at hp
      exact absurd hp (List.not_mem_nil p)
  have hinv := processRows_inv genId (l1 :: rest)
    { dims := []
    , sws := (mintSubjects genId genColor sws ((parseCSVChars l0 false [] []).drop 2) 0).1
    , ctr := (mintSubjects genId genColor sws ((parseCSVChars l0 false [] []).drop 2) 0).2 }
    hstart
  refine ⟨?_, (hinv.2 sw' hsw').1, (hinv.2 sw' hsw').2⟩
  obtain ⟨j, hj, hget⟩ := List.getElem_of_mem hsw'
  have hmapeq := hinv.1
  have hjlt : j < (mintSubjects genId genColor sws
      ((parseCSVChars l0 false [] []).drop 2) 0).1.length := by
    have hlen := congrArg List.length hmapeq
    simp only [List.length_map] at hlen
    omega
  have htr : swTriple sw' = swTriple ((mintSubjects genId genColor sws
      ((parseCSVChars l0 false [] []).drop 2) 0).1[j]) := by
    have h1 := congrArg (fun l => l[j]?) hmapeq
    simp only [List.getElem?_map] at h1
    rw [List.getElem?_eq_getElem hj, hget] at h1
    rw [List.getElem?_eq_getElem hjlt] at h1
    simpa using h1
  have hmem : (mintSubjects genId genColor sws
      ((parseCSVChars l0 false [] []).drop 2) 0).1[j]
      ∈ (mintSubjects genId genColor sws ((parseCSVChars l0 false [] []).drop 2) 0).1 :=
    List.getElem_mem hjlt
  obtain ⟨_, _, hid⟩ := hmint _ hmem
  intro e hfind
  have hname : sw'.name = ((mintSubjects genId genColor sws
      ((parseCSVChars l0 false [] []).drop 2) 0).1[j]).name := by
    have h2 := congrArg (fun q => q.2.1) htr
    simpa [swTriple] using h2
  rw [hname] at hfind
  obtain ⟨hie, hce⟩ := hid e hfind
  have hidq : sw'.id = ((mintSubjects genId genColor sws
      ((parseCSVChars l0 false [] []).drop 2) 0).1[j]).id := by
    have h2 := congrArg (fun q => q.1) htr
    simpa [swTriple] using h2
  have hcq : sw'.color = ((mintSubjects genId genColor sws
      ((parseCSVChars l0 false [] []).drop 2) 0).1[j]).color := by
    have h2 := congrArg (fun q => q.2.2) htr
    simpa [swTriple] using h2
  exact ⟨hidq.trans hie, hcq.trans hce⟩

/-- Claim C10, witness: importing a file whose subject header matches the
existing subject `exSwA` keeps its id `"a"` and color `"red"`, with maps
rebuilt from the file. -/
theorem import_rebuilds_matched_subjects_witness :
    importCSV (fun _ => "g") (fun _ => "c") [exDimD] [exSwA] "Dim,Type,A\nD,Score,3"
      = .success [{ id := "d_g", name := "D" }]
          [{ id := "a", name := "A", color := "red",
             scores := [("d_g", 3)], descriptions := [] }] ∧
    (∀ sw' ∈ [({ id := "a", name := "A", color := "red",
                 scores := [("d_g", 3)], descriptions := [] } : Software)],
      (∀ e : Software,
          ([exSwA] : List Software).find? (fun s => s.name.data == sw'.name.data) = some e →
        sw'.id = e.id ∧ sw'.color = e.color) ∧
      (∀ p ∈ sw'.scores, ∃ dm ∈ [({ id := "d_g", name := "D" } : Dimension)], p.1 = dm.id) ∧
      (∀ p ∈ sw'.descriptions,
        ∃ dm ∈ [({ id := "d_g", name := "D" } : Dimension)], p.1 = dm.id)) := by
  have hs : importCSV (fun _ => "g") (fun _ => "c") [exDimD] [exSwA] "Dim,Type,A\nD,Score,3"
      = .success [{ id := "d_g", name := "D" }]
          [{ id := "a", name := "A", color := "red",
             scores := [("d_g", 3)], descriptions := [] }] := by
    simp +decide [importCSV, splitRN, parseCSVChars, mintSubjects, processRow, processFields,
      applyValues, applyCell, mintDimId, slugChars, slugAux, jsTrim, lowerChars, objSet,
      jsNumber?, jsNumberCore, digitsToNat?, digitsToNatAux, exSwA, exDimD]
  exact ⟨hs, import_rebuilds_matched_subjects (fun _ => "g") (fun _ => "c")
    [exDimD] [exSwA] "Dim,Type,A\nD,Score,3" _ _ hs⟩

end AV
